import Mathlib

/-!
# Verification of the Weiler–Atherton polygon-clipping core

Shallow embedding of `geometry.py` and `weiler_atherton.py` (the algorithmic
core of the repository) and proofs about it.

Modelling conventions:
* Python floats are modelled by exact rationals `ℚ`; the algorithm is a
  field-arithmetic algorithm and every claim under study is about its control
  flow and data flow, not about floating-point rounding.
* `math.hypot(dx, dy) ≤ t` (for `t ≥ 0`) is modelled by the exactly equivalent
  square comparison `dx² + dy² ≤ t²`, keeping everything inside `ℚ`.
* Mutation of the per-call node graph is modelled by explicit state passing:
  nodes live in per-ring arenas (`List (List Node)`) and the Python object
  references (`Node.neighbor`, loop cursors) become positions
  `Side × ring-index × node-index` into those arenas, exactly as suggested by
  the design notes of the specification.
* The probe computation of `mark_entry_exit` divides by
  `math.hypot(dx, dy)`; the real-valued square root is modelled exactly on the
  branches the algorithm distinguishes (see `probe_point`), and the genuinely
  irrational branch is additionally modelled over `ℝ` (see `probePointR`).
-/

namespace WeilerAtherton

/-- A point, `geometry.Point = Tuple[float, float]`. -/
abbrev Point : Type := ℚ × ℚ

/-- A ring, `geometry.Ring = List[Point]`. -/
abbrev Ring : Type := List Point

/-- The polygon model of `geometry.PolygonModel`. -/
structure PolygonModel where
  rings : List Ring
  is_main : Bool := false
  is_clipper : Bool := false
  deriving DecidableEq, Repr

/-- The shared tolerance, `geometry.EPS = 1e-8`. -/
def EPS : ℚ := 1 / 100000000

/-- `geometry.point_eq`: `math.hypot(ax-bx, ay-by) <= eps`, modelled by the
equivalent squared comparison. -/
def point_eq (a b : Point) : Bool :=
  decide ((a.1 - b.1) ^ 2 + (a.2 - b.2) ^ 2 ≤ EPS ^ 2)

/-- `geometry.orient`: the 2D cross product `(b-a) × (c-a)`. -/
def orient (a b c : Point) : ℚ :=
  (b.1 - a.1) * (c.2 - a.2) - (b.2 - a.2) * (c.1 - a.1)

/-- `geometry.on_segment`: `p` collinear with `ab` within `EPS` and inside the
`EPS`-padded bounding box of `ab`. -/
def on_segment (a b p : Point) : Bool :=
  if |orient a b p| > EPS then false
  else
    decide (min a.1 b.1 - EPS ≤ p.1 ∧ p.1 ≤ max a.1 b.1 + EPS ∧
            min a.2 b.2 - EPS ≤ p.2 ∧ p.2 ≤ max a.2 b.2 + EPS)

/-- `geometry.seg_intersection`: intersection point of segments `ab` and `cd`,
if any.  Near-parallel case (`|denom| < EPS`) falls back to endpoint checks in
the order `a, b, c, d`; otherwise the line-intersection point is returned when
it is inside both `EPS`-padded bounding boxes. -/
def seg_intersection (a b c d : Point) : Option Point :=
  let x1 := a.1; let y1 := a.2
  let x2 := b.1; let y2 := b.2
  let x3 := c.1; let y3 := c.2
  let x4 := d.1; let y4 := d.2
  let denom := (x1 - x2) * (y3 - y4) - (y1 - y2) * (x3 - x4)
  if |denom| < EPS then
    if on_segment c d a then some a
    else if on_segment c d b then some b
    else if on_segment a b c then some c
    else if on_segment a b d then some d
    else none
  else
    let px := ((x1 * y2 - y1 * x2) * (x3 - x4) - (x1 - x2) * (x3 * y4 - y3 * x4)) / denom
    let py := ((x1 * y2 - y1 * x2) * (y3 - y4) - (y1 - y2) * (x3 * y4 - y3 * x4)) / denom
    if min x1 x2 - EPS ≤ px ∧ px ≤ max x1 x2 + EPS ∧
       min y1 y2 - EPS ≤ py ∧ py ≤ max y1 y2 + EPS ∧
       min x3 x4 - EPS ≤ px ∧ px ≤ max x3 x4 + EPS ∧
       min y3 y4 - EPS ≤ py ∧ py ≤ max y3 y4 + EPS then
      some (px, py)
    else none

/-- The edge list of a ring: pairs `(ring[i], ring[(i+1) % n])`. -/
def ringEdges (r : Ring) : List (Point × Point) :=
  r.zip (r.rotate 1)

/-- One ray-casting toggle test of `geometry.point_in_ring`: the edge straddles
the horizontal line through `p` (half-open convention `(y1 > y) != (y2 > y)`)
and the x-intercept lies strictly right of `p`. -/
def crossesRay (p : Point) (e : Point × Point) : Bool :=
  (decide ((e.1.2 > p.2) ≠ (e.2.2 > p.2))) &&
  decide ((e.2.1 - e.1.1) * (p.2 - e.1.2) / (e.2.2 - e.1.2) + e.1.1 > p.1)

/-- The edge loop of `geometry.point_in_ring`: early `return True` on an
on-segment hit, otherwise parity toggling. -/
def pir_loop (p : Point) : List (Point × Point) → Bool → Bool
  | [], inside => inside
  | e :: es, inside =>
    if on_segment e.1 e.2 p then true
    else pir_loop p es (if crossesRay p e then !inside else inside)

/-- `geometry.point_in_ring`: ray casting with boundary-inclusive short
circuit. -/
def point_in_ring (pt : Point) (ring : Ring) : Bool :=
  pir_loop pt (ringEdges ring) false

/-- `geometry.point_in_polygon_with_holes`: inside the outer ring and inside no
hole ring. -/
def point_in_polygon_with_holes (pt : Point) (poly : PolygonModel) : Bool :=
  match poly.rings with
  | [] => false
  | outer :: holes => point_in_ring pt outer && holes.all fun inner => !point_in_ring pt inner

/-- Which polygon's node arena a position refers to (`subj_nodes` or
`clip_nodes`). -/
inductive Side where
  | subj : Side
  | clip : Side
  deriving DecidableEq, Repr

/-- The other side. -/
def Side.flip : Side → Side
  | .subj => .clip
  | .clip => .subj

/-- A traversal-graph node (`weiler_atherton.Node`).  The Python object
reference `neighbor` becomes a position `(side, ring index, node index)` into
the two arenas. -/
structure Node where
  pt : Point
  is_inter : Bool := false
  alpha : Option ℚ := none
  edge : Option (ℕ × ℕ × ℕ) := none
  neighbor : Option (Side × ℕ × ℕ) := none
  visited : Bool := false
  is_entry : Option Bool := none
  deriving DecidableEq, Repr

/-- Placeholder node used to totalise list indexing (never an intersection
node, so it can never be confused with real graph content on the paths the
algorithm takes). -/
def defNode : Node := { pt := (0, 0) }

/-- The per-call node graph: `subj_nodes` and `clip_nodes`. -/
structure Graphs where
  subj : List (List Node)
  clip : List (List Node)
  deriving DecidableEq, Repr

/-- The arena of one side. -/
def Graphs.arena (g : Graphs) : Side → List (List Node)
  | .subj => g.subj
  | .clip => g.clip

/-- The node at a position (placeholder when out of range). -/
def Graphs.node (g : Graphs) (p : Side × ℕ × ℕ) : Node :=
  ((g.arena p.1).getD p.2.1 []).getD p.2.2 defNode

/-- Functional update at one list index (no-op out of range, like all updates
the algorithm performs). -/
def updAt {α : Type} : List α → ℕ → (α → α) → List α
  | [], _, _ => []
  | x :: xs, 0, f => f x :: xs
  | x :: xs, n + 1, f => x :: updAt xs n f

/-- Update the node at a position in one arena. -/
def updNodes (ns : List (List Node)) (r i : ℕ) (f : Node → Node) : List (List Node) :=
  updAt ns r (fun ring => updAt ring i f)

/-- Update the node at a position of the graph. -/
def Graphs.upd (g : Graphs) (p : Side × ℕ × ℕ) (f : Node → Node) : Graphs :=
  match p.1 with
  | .subj => { g with subj := updNodes g.subj p.2.1 p.2.2 f }
  | .clip => { g with clip := updNodes g.clip p.2.1 p.2.2 f }

/-- `weiler_atherton.build_vertex_lists`: one node per original vertex, with
`edge = (ring_idx, i, (i+1) % n)`. -/
def build_vertex_lists (poly : PolygonModel) : List (List Node) :=
  poly.rings.enum.map fun rring =>
    rring.2.enum.map fun ipt =>
      { pt := ipt.2, is_inter := false, alpha := none,
        edge := some (rring.1, ipt.1, (ipt.1 + 1) % rring.2.length) }

/-- One intersection record of `insert_intersections`. -/
structure Rec where
  pt : Point
  subj_edge : ℕ × ℕ × ℕ
  subj_alpha : ℚ
  clip_edge : ℕ × ℕ × ℕ
  clip_alpha : ℚ
  deriving DecidableEq, Repr

/-- `calc_alpha` (local to `insert_intersections`): clamped projection
parameter of `p` on the edge `u → v`; degenerate edges (squared length below
`EPS`) give `0`. -/
def calc_alpha (p u v : Point) : ℚ :=
  let dx := v.1 - u.1
  let dy := v.2 - u.2
  let denom := dx * dx + dy * dy
  if denom < EPS then 0
  else max 0 (min 1 (((p.1 - u.1) * dx + (p.2 - u.2) * dy) / denom))

/-- The intersection-record collection loop of `insert_intersections`: every
subject edge against every clipper edge, in source iteration order; rings with
fewer than two vertices contribute nothing. -/
def interRecords (subject clipper : PolygonModel) : List Rec :=
  subject.rings.enum.flatMap fun sring =>
    if sring.2.length < 2 then []
    else
      (List.range sring.2.length).flatMap fun s_idx =>
        let a := sring.2.getD s_idx (0, 0)
        let b := sring.2.getD ((s_idx + 1) % sring.2.length) (0, 0)
        clipper.rings.enum.flatMap fun cring =>
          if cring.2.length < 2 then []
          else
            (List.range cring.2.length).filterMap fun c_idx =>
              let c := cring.2.getD c_idx (0, 0)
              let d := cring.2.getD ((c_idx + 1) % cring.2.length) (0, 0)
              (seg_intersection a b c d).map fun ip =>
                { pt := ip,
                  subj_edge := (sring.1, s_idx, (s_idx + 1) % sring.2.length),
                  subj_alpha := calc_alpha ip a b,
                  clip_edge := (cring.1, c_idx, (c_idx + 1) % cring.2.length),
                  clip_alpha := calc_alpha ip c d }

/-- The in-place merge the deduplication loop applies to the first retained
record whose point is `EPS`-equal to the incoming one: keep the minimum alpha
on each side (point and edges of the retained record are untouched). -/
def mergeAlphas (u r : Rec) : Rec :=
  { u with subj_alpha := min u.subj_alpha r.subj_alpha,
           clip_alpha := min u.clip_alpha r.clip_alpha }

/-- One step of the deduplication loop of `insert_intersections`: scan the
retained records in order and merge `r` into the first one with an `EPS`-equal
point, or append `r` as new if none matches. -/
def dedupStep : List Rec → Rec → List Rec
  | [], r => [r]
  | u :: us, r =>
    if point_eq u.pt r.pt then mergeAlphas u r :: us
    else u :: dedupStep us r

/-- The deduplication loop of `insert_intersections`. -/
def dedupRecs (recs : List Rec) : List Rec :=
  recs.foldl dedupStep []

/-- First-occurrence-ordered list of distinct keys, modelling the insertion
order of a Python dict used with `setdefault`. -/
def dedupKeys : List (ℕ × ℕ × ℕ) → List (ℕ × ℕ × ℕ)
  | [] => []
  | k :: ks => k :: (dedupKeys ks).filter (fun k2 => k2 ≠ k)

/-- Stable insertion sort by a boolean strict-less test (`insSortBy lt`):
an element is inserted after every earlier element it is not strictly below,
matching Python's stable `sorted`. -/
def insSortInto {α : Type} (lt : α → α → Bool) (x : α) : List α → List α
  | [] => [x]
  | y :: ys => if lt x y then x :: y :: ys else y :: insSortInto lt x ys

/-- Stable insertion sort. -/
def insSortBy {α : Type} (lt : α → α → Bool) : List α → List α
  | [] => []
  | x :: xs => insSortInto lt x (insSortBy lt xs)

/-- The sort key `(alpha, pt.x, pt.y)` of `insert_into`, as a strict
lexicographic comparison. -/
def recKeyLt (alphaOf : Rec → ℚ) (r1 r2 : Rec) : Bool :=
  decide (alphaOf r1 < alphaOf r2 ∨
    (alphaOf r1 = alphaOf r2 ∧ (r1.pt.1 < r2.pt.1 ∨
      (r1.pt.1 = r2.pt.1 ∧ r1.pt.2 < r2.pt.2))))

/-- Python `list.insert` (clamps the position to the length). -/
def insertAt {α : Type} (l : List α) (n : ℕ) (x : α) : List α :=
  l.take n ++ [x] ++ l.drop n

/-- The per-record insertion step of `insert_into`: skip (updating alpha/edge
to the minimum) if the ring already holds an `EPS`-equal intersection node,
otherwise insert a fresh node at the running position. -/
def insertRecStep (edge : ℕ × ℕ × ℕ) (alphaOf : Rec → ℚ)
    (st : List Node × ℕ) (rec : Rec) : List Node × ℕ :=
  match st.1.findIdx? (fun n => n.is_inter && point_eq n.pt rec.pt) with
  | some k =>
    (updAt st.1 k (fun n =>
      match n.alpha with
      | none => { n with alpha := some (alphaOf rec), edge := some edge }
      | some a =>
        if alphaOf rec < a then { n with alpha := some (alphaOf rec), edge := some edge }
        else n), st.2)
  | none =>
    (insertAt st.1 st.2 { pt := rec.pt, is_inter := true,
                          alpha := some (alphaOf rec), edge := some edge },
     st.2 + 1)

/-- `insert_into` for one edge group: locate the start vertex, sort the group's
records by `(alpha, x, y)` and insert them one by one. -/
def insertEdgeGroup (alphaOf : Rec → ℚ) (polyNodes : List (List Node))
    (edge : ℕ × ℕ × ℕ) (recs : List Rec) : List (List Node) :=
  let nodes := polyNodes.getD edge.1 []
  let insert_pos :=
    match nodes.findIdx? (fun node =>
      (!node.is_inter) && (match node.edge with
                           | some e => decide (e.2.1 = edge.2.1)
                           | none => false)) with
    | some idx => idx + 1
    | none => nodes.length
  let recs_sorted := insSortBy (recKeyLt alphaOf) recs
  let nodes2 := (recs_sorted.foldl (insertRecStep edge alphaOf) (nodes, insert_pos)).1
  updAt polyNodes edge.1 (fun _ => nodes2)

/-- `insert_into`: group the records by host edge (dict insertion order) and
insert each group. -/
def insertInto (polyNodes : List (List Node)) (recs : List Rec)
    (edgeOf : Rec → ℕ × ℕ × ℕ) (alphaOf : Rec → ℚ) : List (List Node) :=
  (dedupKeys (recs.map edgeOf)).foldl
    (fun pn edge => insertEdgeGroup alphaOf pn edge ((recs.filter (fun r => edgeOf r = edge))))
    polyNodes

/-- `find_inter_node`: first intersection node (ring-major order) whose point
is `EPS`-equal to `pt`. -/
def findInterNode (polyNodes : List (List Node)) (pt : Point) : Option (ℕ × ℕ) :=
  (polyNodes.enum.filterMap fun rring =>
    (rring.2.findIdx? (fun n => n.is_inter && point_eq n.pt pt)).map
      fun i => (rring.1, i)).head?

/-- The neighbor-linking loop of `insert_intersections`. -/
def linkNeighbors (g : Graphs) (recs : List Rec) : Graphs :=
  recs.foldl
    (fun g rec =>
      match findInterNode g.subj rec.pt, findInterNode g.clip rec.pt with
      | some ps, some pc =>
        (g.upd (Side.subj, ps.1, ps.2) fun n => { n with neighbor := some (Side.clip, pc.1, pc.2) }).upd
          (Side.clip, pc.1, pc.2) fun n => { n with neighbor := some (Side.subj, ps.1, ps.2) }
      | _, _ => g)
    g

/-- `weiler_atherton.insert_intersections`: build both vertex lists, collect
and deduplicate the intersection records, insert them on both sides and
cross-link them. -/
def insert_intersections (subject clipper : PolygonModel) : Graphs :=
  let recs := dedupRecs (interRecords subject clipper)
  let subjN := insertInto (build_vertex_lists subject) recs Rec.subj_edge Rec.subj_alpha
  let clipN := insertInto (build_vertex_lists clipper) recs Rec.clip_edge Rec.clip_alpha
  linkNeighbors { subj := subjN, clip := clipN } recs

/-- Exact rational square root: correct whenever the numerator and denominator
of the (reduced) argument are perfect squares; used only to model the one
genuinely irrational quantity of the source, `math.hypot` inside
`mark_entry_exit` on its short-edge branch (see `probe_point`). -/
def ratSqrt (q : ℚ) : ℚ :=
  (Nat.sqrt q.num.toNat : ℚ) / (Nat.sqrt q.den : ℚ)

/-- The probe-point computation of `mark_entry_exit` (lines computing
`ux, uy, offset, probe`).  The three branches of the source are modelled by
exact square comparisons:
* `norm < EPS` (degenerate direction) is `normSq < EPS²`; the probe is
  `pt + (1, 0) * (EPS * 100)`.
* Otherwise `offset = max(EPS*10, norm*1e-4)`.  When `norm * 1e-4 ≥ EPS * 10`
  (i.e. `normSq ≥ (100000 * EPS)²`) the probe
  `pt + (d/norm) * (norm * 1e-4)` simplifies exactly to `pt + d * 1e-4`,
  with no square root left.
* On the remaining branch (`EPS ≤ norm < 100000 * EPS`) the probe is
  `pt + (d/norm) * (EPS * 10)`; the real square root is modelled by
  `ratSqrt` (exact when `normSq` is a rational square).  `probePointR` below
  is the exact real-valued model of the same source lines. -/
def probe_point (p nxt : Point) : Point :=
  let dx := nxt.1 - p.1
  let dy := nxt.2 - p.2
  let normSq := dx * dx + dy * dy
  if normSq < EPS ^ 2 then
    (p.1 + 1 * (EPS * 100), p.2 + 0 * (EPS * 100))
  else if (100000 * EPS) ^ 2 ≤ normSq then
    (p.1 + dx * (1 / 10000), p.2 + dy * (1 / 10000))
  else
    let norm := ratSqrt normSq
    (p.1 + dx / norm * (EPS * 10), p.2 + dy / norm * (EPS * 10))

/-- The neighbor scan of the `mark_entry_exit` loop at subject position
`(ring_idx, i)`: index of the first node along the ring whose point is not
`EPS`-equal to the current node's (forward `(i+k) % n` for `k = 1..n-1`, then
backward `(i-k) % n`), or `none` for a fully degenerate ring. -/
def markNextIdx (g : Graphs) (ring_idx i : ℕ) : Option ℕ :=
  let nodes := g.subj.getD ring_idx []
  let n := nodes.length
  let node := nodes.getD i defNode
  match (List.range' 1 (n - 1)).find?
      (fun k => !point_eq (nodes.getD ((i + k) % n) defNode).pt node.pt) with
  | some k => some ((i + k) % n)
  | none =>
    match (List.range' 1 (n - 1)).find?
        (fun k => !point_eq (nodes.getD ((i + (n - k)) % n) defNode).pt node.pt) with
    | some k => some ((i + (n - k)) % n)
    | none => none

/-- One iteration of the `mark_entry_exit` loop at subject position
`(ring_idx, i)`: skip non-intersections and already-classified nodes, find the
first `EPS`-distinct ring neighbor (forward, then backward), probe towards it,
set `is_entry`, and set the cross-linked node's `is_entry` to the negation. -/
def markStep (clipper : PolygonModel) (g : Graphs) (ring_idx i : ℕ) : Graphs :=
  let node := g.node (Side.subj, ring_idx, i)
  if !node.is_inter then g
  else if node.is_entry ≠ none then g
  else
    match markNextIdx g ring_idx i with
    | none => g
    | some nIdx =>
      let next_pt := (g.node (Side.subj, ring_idx, nIdx)).pt
      let probe := probe_point node.pt next_pt
      let inside := point_in_polygon_with_holes probe clipper
      let g2 := g.upd (Side.subj, ring_idx, i) fun nd => { nd with is_entry := some inside }
      match node.neighbor with
      | some nb => g2.upd nb fun nd => { nd with is_entry := some (!inside) }
      | none => g2

/-- `weiler_atherton.mark_entry_exit`: classify every subject-side intersection
node (the `subject` parameter of the source is unused). -/
def mark_entry_exit (g : Graphs) (clipper : PolygonModel) : Graphs :=
  (List.range g.subj.length).foldl
    (fun g1 ring_idx =>
      (List.range (g1.subj.getD ring_idx []).length).foldl
        (fun g2 i => markStep clipper g2 ring_idx i) g1)
    g

/-- The inner ring walk of `build_results_from_nodes`: advance `j` cyclically
from the current index `i`, appending each point not `EPS`-equal to the last
output point, until an intersection node is met (returning its index) or the
walk wraps around to `i` (returning `none`).  The fuel argument is `n` at the
call site, which the walk can never exhaust before wrapping. -/
def walkAux (nodes : List Node) (n i : ℕ) : ℕ → ℕ → List Point → List Point × Option ℕ
  | 0, _, pts => (pts, none)
  | fuel + 1, j, pts =>
    let j2 := (j + 1) % n
    let node := nodes.getD j2 defNode
    let pts2 := if point_eq (pts.getLastD (0, 0)) node.pt then pts else pts ++ [node.pt]
    if node.is_inter then (pts2, some j2)
    else if j2 = i then (pts2, none)
    else walkAux nodes n i fuel j2 pts2

/-- The mutable state of one tracing loop: the node graph, the cursor node
(`current`, a position), the side being walked (`current_side`), and the
output point list (`polygon_pts`). -/
structure TraceState where
  g : Graphs
  current : Side × ℕ × ℕ
  side : Side
  pts : List Point
  deriving DecidableEq, Repr

/-- One iteration of the `while True` tracing loop.  The returned Bool is
false exactly on the `continue` paths (cursor not found on the walked side),
which skip the stop-condition check. -/
def traceBody (st : TraceState) : TraceState × Bool :=
  if st.current.1 ≠ st.side then
    ({ st with side := st.side.flip }, false)
  else
    let r := st.current.2.1
    let i := st.current.2.2
    let nodes := (st.g.arena st.side).getD r []
    let n := nodes.length
    let res := walkAux nodes n i n i st.pts
    match res.2 with
    | none => ({ st with pts := res.1 }, true)
    | some j =>
      let node := nodes.getD j defNode
      let g2 := st.g.upd (st.side, r, j) fun nd => { nd with visited := true }
      match node.neighbor with
      | some nb =>
        let g3 := g2.upd nb fun nd => { nd with visited := true }
        ({ g := g3, current := nb, side := st.side.flip, pts := res.1 }, true)
      | none =>
        ({ g := g2, current := (st.side, r, j), side := st.side.flip, pts := res.1 }, true)

/-- The stop condition of the tracing loop: the output has closed onto its
first point, or the cursor is the (already visited) seed node. -/
def stopCond (st : TraceState) (startPos : ℕ × ℕ) : Bool :=
  point_eq (st.pts.getD 0 (0, 0)) (st.pts.getLastD (0, 0)) ||
  (decide (st.current = (Side.subj, startPos.1, startPos.2)) && (st.g.node st.current).visited)

/-- The tracing loop with an explicit iteration budget.  The source runs it
with `fuel = 100000` (the `safety` counter); the Bool records whether the loop
exited through its stop condition (`true`) rather than through the budget. -/
def traceLoopAux (startPos : ℕ × ℕ) : ℕ → TraceState → TraceState × Bool
  | 0, st => (st, false)
  | fuel + 1, st =>
    let bs := traceBody st
    if bs.2 && stopCond bs.1 startPos then (bs.1, true)
    else traceLoopAux startPos fuel bs.1

/-- One full trace from the seed at subject position `(r, i)`: run the loop
with the source's `safety` budget of 100000 iterations and trim the duplicated
closing point. -/
def traceOne (g : Graphs) (r i : ℕ) : Graphs × List Point :=
  let node := g.node (Side.subj, r, i)
  let side0 := if node.is_entry = some true then Side.subj else Side.clip
  let st0 : TraceState := { g := g, current := (Side.subj, r, i), side := side0, pts := [node.pt] }
  let res := traceLoopAux (r, i) 100000 st0
  let pts :=
    if res.2 && decide (2 ≤ res.1.pts.length) &&
       point_eq (res.1.pts.getD 0 (0, 0)) (res.1.pts.getLastD (0, 0)) then
      res.1.pts.dropLast
    else res.1.pts
  (res.1.g, pts)

/-- The post-processing of one traced ring: drop points `EPS`-equal to their
predecessor. -/
def cleanPts (pts : List Point) : List Point :=
  pts.foldl
    (fun acc p =>
      if acc = [] then acc ++ [p]
      else if point_eq (acc.getLastD (0, 0)) p then acc
      else acc ++ [p])
    []

/-- The seed pool of `build_results_from_nodes`: subject-side intersection
node positions in ring order. -/
def interPositions (g : Graphs) : List (ℕ × ℕ) :=
  g.subj.enum.flatMap fun rring =>
    rring.2.enum.filterMap fun inode =>
      if inode.2.is_inter then some (rring.1, inode.1) else none

/-- One seed of the result loop of `build_results_from_nodes`: skip visited
seeds, mark-and-skip unlinked seeds, otherwise trace, clean and keep the ring
when it has at least 3 points. -/
def buildStep (st : List Ring × Graphs) (pos : ℕ × ℕ) : List Ring × Graphs :=
  let node := st.2.node (Side.subj, pos.1, pos.2)
  if node.visited then st
  else if node.neighbor = none then
    (st.1, st.2.upd (Side.subj, pos.1, pos.2) fun nd => { nd with visited := true })
  else
    let res := traceOne st.2 pos.1 pos.2
    let cleaned := cleanPts res.2
    (if 3 ≤ cleaned.length then st.1 ++ [cleaned] else st.1, res.1)

/-- `weiler_atherton.build_results_from_nodes`: trace from every unvisited
linked seed; keep cleaned rings of at least 3 points.  (The source's final
`print` block is output-only and not modelled.) -/
def build_results_from_nodes (g : Graphs) : List Ring × Graphs :=
  (interPositions g).foldl buildStep ([], g)

/-- The first vertex of a polygon's outer ring, when
`poly.rings and poly.rings[0]` is truthy. -/
def firstVertex (poly : PolygonModel) : Option Point :=
  match poly.rings with
  | (p :: _) :: _ => some p
  | _ => none

/-- The clipper-side half of the no-intersection containment fallback.
(`[list(r) for r in rings]` copies each ring, so the returned value equals
`rings`.) -/
def clipContainTest (s c : PolygonModel) : List Ring :=
  match firstVertex c with
  | some q => if point_in_polygon_with_holes q s then c.rings else []
  | none => []

/-- The no-intersection containment fallback of `weiler_atherton_clip`. -/
def noInterResult (s c : PolygonModel) : List Ring :=
  match firstVertex s with
  | some p => if point_in_polygon_with_holes p c then s.rings else clipContainTest s c
  | none => clipContainTest s c

/-- `weiler_atherton.weiler_atherton_clip`: `None` guard, graph construction,
no-intersection fallback, classification, tracing. -/
def weiler_atherton_clip (subject clipper : Option PolygonModel) : List Ring :=
  match subject, clipper with
  | none, _ => []
  | some _, none => []
  | some s, some c =>
    let g := insert_intersections s c
    if g.subj.any (fun ring => ring.any fun node => node.is_inter) then
      (build_results_from_nodes (mark_entry_exit g c)).1
    else noInterResult s c

/-! ## Basic lemmas about the embedding -/

set_option maxRecDepth 40000

/- Lean's core rational arithmetic is `@[irreducible]` for elaboration
performance; concrete evaluations below go through `decide`, which needs the
operations reducible. -/
attribute [local semireducible] Rat.add Rat.mul Rat.sub Rat.inv

theorem point_eq_refl (p : Point) : point_eq p p = true := by
  unfold point_eq EPS
  norm_num

theorem point_eq_symm (p q : Point) : point_eq p q = point_eq q p := by
  unfold point_eq
  rw [show (p.1 - q.1) ^ 2 = (q.1 - p.1) ^ 2 by ring,
      show (p.2 - q.2) ^ 2 = (q.2 - p.2) ^ 2 by ring]

theorem updAt_length {α : Type} (l : List α) (i : ℕ) (f : α → α) :
    (updAt l i f).length = l.length := by
  induction l generalizing i with
  | nil => rfl
  | cons x xs ih =>
    cases i with
    | zero => rfl
    | succ n => simp [updAt, ih]

theorem mem_updAt {α : Type} {l : List α} {i : ℕ} {f : α → α} {x : α}
    (h : x ∈ updAt l i f) : x ∈ l ∨ ∃ y, y ∈ l ∧ x = f y := by
  induction l generalizing i with
  | nil => simp [updAt] at h
  | cons a as ih =>
    cases i with
    | zero =>
      simp only [updAt, List.mem_cons] at h
      rcases h with h | h
      · exact Or.inr ⟨a, List.mem_cons_self a as, h⟩
      · exact Or.inl (List.mem_cons_of_mem a h)
    | succ n =>
      simp only [updAt, List.mem_cons] at h
      rcases h with h | h
      · exact Or.inl (h ▸ List.mem_cons_self a as)
      · rcases ih h with h2 | ⟨y, hy, hxy⟩
        · exact Or.inl (List.mem_cons_of_mem a h2)
        · exact Or.inr ⟨y, List.mem_cons_of_mem a hy, hxy⟩

theorem updAt_mem_image {α : Type} {l : List α} {i : ℕ} {f : α → α} {y : α}
    (h : y ∈ l) : y ∈ updAt l i f ∨ f y ∈ updAt l i f := by
  induction l generalizing i with
  | nil => simp at h
  | cons a as ih =>
    rcases List.mem_cons.1 h with rfl | h2
    · cases i with
      | zero => exact Or.inr (List.mem_cons_self _ _)
      | succ n => exact Or.inl (List.mem_cons_self _ _)
    · cases i with
      | zero => exact Or.inl (List.mem_cons_of_mem _ h2)
      | succ n =>
        rcases ih (i := n) h2 with h3 | h3
        · exact Or.inl (List.mem_cons_of_mem _ h3)
        · exact Or.inr (List.mem_cons_of_mem _ h3)

/-! ## C10: `None` guard -/

/-- C10: if either argument of `weiler_atherton_clip` is `None`, the result is
the empty list, with no geometric computation and no exception. -/
theorem clip_none_guard :
    (∀ c : Option PolygonModel, weiler_atherton_clip none c = []) ∧
    (∀ s : Option PolygonModel, weiler_atherton_clip s none = []) := by
  constructor
  · intro c; rfl
  · intro s; cases s <;> rfl

/-! ## C1: no-intersection containment fallback -/

/-- The containment test of the fallback, as the claim words it: the polygon
has a first outer-ring vertex and that vertex lies inside the other polygon
(boundary-inclusive, holes excluded). -/
def firstInsideB (a b : PolygonModel) : Bool :=
  match firstVertex a with
  | some p => point_in_polygon_with_holes p b
  | none => false

/-- The no-intersection fallback as the claim states it: subject's rings if
subject's first outer vertex is inside the clipper, else clipper's rings if
clipper's first outer vertex is inside the subject, else empty. -/
def noInterFallbackSpec (s c : PolygonModel) : List Ring :=
  if firstInsideB s c then s.rings
  else if firstInsideB c s then c.rings
  else []

theorem noInterResult_eq_spec (s c : PolygonModel) :
    noInterResult s c = noInterFallbackSpec s c := by
  unfold noInterResult noInterFallbackSpec clipContainTest firstInsideB
  cases hs : firstVertex s <;> cases hc : firstVertex c <;> simp

/-- C1: when the graph builder produces zero intersection nodes, `clip`
returns exactly the fallback of the claim: subject's rings if subject's first
outer-ring vertex lies inside the clipper (boundary-inclusive, holes
excluded), else clipper's rings if clipper's first outer-ring vertex lies
inside the subject, else the empty list. -/
theorem clip_no_intersections (s c : PolygonModel)
    (hs : ((insert_intersections s c).subj.all fun ring => ring.all fun n => !n.is_inter) = true)
    (_hc : ((insert_intersections s c).clip.all fun ring => ring.all fun n => !n.is_inter) = true) :
    weiler_atherton_clip (some s) (some c) = noInterFallbackSpec s c := by
  have hany : ((insert_intersections s c).subj.any fun ring => ring.any fun n => n.is_inter)
      = false := by
    rw [List.any_eq_false]
    intro ring hring
    rw [Bool.not_eq_true, List.any_eq_false]
    intro n hn
    rw [Bool.not_eq_true]
    have h1 := (List.all_eq_true.1 hs) ring hring
    have h2 := (List.all_eq_true.1 h1) n hn
    simpa using h2
  simp only [weiler_atherton_clip, hany, Bool.false_eq_true, if_false]
  exact noInterResult_eq_spec s c

/-- Witness for C1: two disjoint unit squares; the builder finds no
intersection nodes and neither square contains the other, so the result is
empty. -/
theorem clip_no_intersections_witness :
    (((insert_intersections { rings := [[(0,0),(1,0),(1,1),(0,1)]] }
        { rings := [[(5,5),(6,5),(6,6),(5,6)]] }).subj.all
          fun ring => ring.all fun n => !n.is_inter) = true) ∧
    weiler_atherton_clip (some { rings := [[(0,0),(1,0),(1,1),(0,1)]] })
        (some { rings := [[(5,5),(6,5),(6,6),(5,6)]] })
      = noInterFallbackSpec { rings := [[(0,0),(1,0),(1,1),(0,1)]] }
          { rings := [[(5,5),(6,5),(6,6),(5,6)]] } :=
  ⟨by decide,
   clip_no_intersections { rings := [[(0,0),(1,0),(1,1),(0,1)]] }
     { rings := [[(5,5),(6,5),(6,6),(5,6)]] } (by decide) (by decide)⟩

/-! ## C5: `seg_intersection` against its specification -/

/-- The determinant of the 2×2 line system solved by `seg_intersection`. -/
def segDenom (a b c d : Point) : ℚ :=
  (a.1 - b.1) * (c.2 - d.2) - (a.2 - b.2) * (c.1 - d.1)

/-- The line-intersection point computed by `seg_intersection` on its
non-near-parallel branch (Cramer's rule). -/
def linePoint (a b c d : Point) : Point :=
  (((a.1 * b.2 - a.2 * b.1) * (c.1 - d.1) - (a.1 - b.1) * (c.1 * d.2 - c.2 * d.1))
     / segDenom a b c d,
   ((a.1 * b.2 - a.2 * b.1) * (c.2 - d.2) - (a.2 - b.2) * (c.1 * d.2 - c.2 * d.1))
     / segDenom a b c d)

/-- `EPS`-padded axis-aligned bounding-box membership. -/
def inPaddedBox (u v p : Point) : Bool :=
  decide (min u.1 v.1 - EPS ≤ p.1 ∧ p.1 ≤ max u.1 v.1 + EPS ∧
          min u.2 v.2 - EPS ≤ p.2 ∧ p.2 ≤ max u.2 v.2 + EPS)

/-- `seg_intersection` as the claim words it: below-`EPS` determinant returns
the first endpoint, in the fixed order `a, b, c, d`, lying on the other
segment (none if no endpoint does); otherwise the line-intersection point,
returned exactly when it lies in both `EPS`-padded bounding boxes. -/
def segIntersectionSpec (a b c d : Point) : Option Point :=
  if |segDenom a b c d| < EPS then
    ([a, b].find? fun p => on_segment c d p).orElse
      (fun _ => [c, d].find? fun p => on_segment a b p)
  else if inPaddedBox a b (linePoint a b c d) && inPaddedBox c d (linePoint a b c d) then
    some (linePoint a b c d)
  else none

/-- C5: `seg_intersection` equals its claimed specification, and on the
non-near-parallel branch the returned point is the unique point of both
carrier lines. -/
theorem seg_intersection_spec (a b c d : Point) :
    seg_intersection a b c d = segIntersectionSpec a b c d ∧
    (EPS ≤ |segDenom a b c d| →
      orient a b (linePoint a b c d) = 0 ∧
      orient c d (linePoint a b c d) = 0 ∧
      ∀ q : Point, orient a b q = 0 → orient c d q = 0 → q = linePoint a b c d) := by
  have hDenom : ∀ h : ¬ |segDenom a b c d| < EPS, segDenom a b c d ≠ 0 := by
    intro h h0
    rw [segDenom] at h0
    apply h
    rw [segDenom, h0]
    norm_num [EPS]
  constructor
  · unfold seg_intersection segIntersectionSpec
    by_cases hlt : |(a.1 - b.1) * (c.2 - d.2) - (a.2 - b.2) * (c.1 - d.1)| < EPS
    · rw [if_pos hlt, if_pos (show |segDenom a b c d| < EPS from hlt)]
      cases h1 : on_segment c d a <;> cases h2 : on_segment c d b <;>
        cases h3 : on_segment a b c <;> cases h4 : on_segment a b d <;>
          simp [h1, h2, h3, h4, List.find?, Option.orElse]
    · rw [if_neg hlt, if_neg (show ¬ |segDenom a b c d| < EPS from hlt)]
      unfold inPaddedBox linePoint segDenom
      simp only [Bool.and_eq_true, decide_eq_true_eq, and_assoc]
  · intro hEps
    have hne : segDenom a b c d ≠ 0 := by
      apply hDenom
      rw [not_lt]
      exact hEps
    refine ⟨?_, ?_, ?_⟩
    · unfold orient linePoint
      field_simp
      unfold segDenom
      ring
    · unfold orient linePoint
      field_simp
      unfold segDenom
      ring
    · intro q h1 h2
      unfold orient at h1 h2
      have hx : q.1 = (linePoint a b c d).1 := by
        unfold linePoint
        rw [eq_div_iff hne]
        unfold segDenom
        linear_combination (d.1 - c.1) * h1 - (b.1 - a.1) * h2
      have hy : q.2 = (linePoint a b c d).2 := by
        unfold linePoint
        rw [eq_div_iff hne]
        unfold segDenom
        linear_combination (d.2 - c.2) * h1 - (b.2 - a.2) * h2
      exact Prod.ext hx hy

/-- Witness for C5 at the crossing diagonals `(0,0)-(2,2)` and `(0,2)-(2,0)`:
the determinant is well above `EPS` and the computed point `(1,1)` is returned
and lies on both lines. -/
theorem seg_intersection_spec_witness :
    EPS ≤ |segDenom (0,0) (2,2) (0,2) (2,0)| ∧
    seg_intersection (0,0) (2,2) (0,2) (2,0) = some (1,1) ∧
    orient (0,0) (2,2) (linePoint (0,0) (2,2) (0,2) (2,0)) = 0 := by
  have h := seg_intersection_spec (0,0) (2,2) (0,2) (2,0)
  have hEps : EPS ≤ |segDenom (0,0) (2,2) (0,2) (2,0)| := by decide
  exact ⟨hEps, by decide, (h.2 hEps).1⟩

/-! ## C7: `point_in_ring` against its specification -/

/-- The x-intercept of an edge with the horizontal line through `p`, as
computed by `point_in_ring`. -/
def xIntercept (p : Point) (e : Point × Point) : ℚ :=
  (e.2.1 - e.1.1) * (p.2 - e.1.2) / (e.2.2 - e.1.2) + e.1.1

/-- Straddling in the claim's literal sense: the endpoint y-coordinates lie on
strictly opposite sides of `p`'s y-coordinate. -/
def straddlesStrict (p : Point) (e : Point × Point) : Bool :=
  decide ((e.1.2 < p.2 ∧ p.2 < e.2.2) ∨ (e.2.2 < p.2 ∧ p.2 < e.1.2))

/-- `point_in_ring` as the claim literally words it: true immediately if `p`
lies on an edge, otherwise odd parity of the edges whose endpoints lie on
strictly opposite sides of `p`'s horizontal ray with x-intercept strictly
beyond `p`. -/
def pointInRingClaim (pt : Point) (ring : Ring) : Bool :=
  (ringEdges ring).any (fun e => on_segment e.1 e.2 pt) ||
  decide ((ringEdges ring).countP
    (fun e => straddlesStrict pt e && decide (xIntercept pt e > pt.1)) % 2 = 1)

/-- `point_in_ring` with the half-open straddle convention the code actually
implements: a crossing is counted when exactly one endpoint's y-coordinate
strictly exceeds `p`'s (an endpoint at exactly `p`'s height counts as not
above). -/
def pointInRingSpec (pt : Point) (ring : Ring) : Bool :=
  (ringEdges ring).any (fun e => on_segment e.1 e.2 pt) ||
  decide ((ringEdges ring).countP (fun e => crossesRay pt e) % 2 = 1)

theorem parity_succ (k : ℕ) : decide ((k + 1) % 2 = 1) = !decide (k % 2 = 1) := by
  cases h2 : decide (k % 2 = 1) <;> simp at h2 ⊢ <;> omega

theorem pir_loop_spec (p : Point) (es : List (Point × Point)) (inside : Bool) :
    pir_loop p es inside =
      (es.any (fun e => on_segment e.1 e.2 p) ||
       (inside ^^ decide (es.countP (fun e => crossesRay p e) % 2 = 1))) := by
  induction es generalizing inside with
  | nil => simp [pir_loop]
  | cons e es ih =>
    by_cases h : on_segment e.1 e.2 p = true
    · simp [pir_loop, h]
    · rw [pir_loop, if_neg h, ih]
      rw [List.any_cons, List.countP_cons]
      rw [show (on_segment e.1 e.2 p) = false from by simpa using h]
      cases hc : crossesRay p e
      · simp
      · rw [if_pos rfl, if_pos rfl, parity_succ]
        cases hA : es.any fun e => on_segment e.1 e.2 p <;> cases inside <;>
          cases hP : decide (es.countP (fun e => crossesRay p e) % 2 = 1) <;> rfl

/-- Counterexample to C7 as stated: for `p = (0,0)` and the triangle
`(1,0), (2,1), (2,-1)` (which has a vertex exactly at `p`'s height), the code
counts the edge `(1,0)-(2,1)` as a crossing although its endpoints do not lie
on strictly opposite sides of `p`'s y, and returns `false` (the point is
outside) while the claim's literal strict-straddle description yields
`true`. -/
theorem point_in_ring_claim_counterexample :
    point_in_ring (0,0) [(1,0),(2,1),(2,-1)] = false ∧
    pointInRingClaim (0,0) [(1,0),(2,1),(2,-1)] = true := by
  constructor <;> decide

/-- C7 (amended): `point_in_ring` returns true immediately when the point
lies on an edge and otherwise returns the ray-casting parity, with a crossing
counted exactly when one endpoint's y strictly exceeds the point's y and the
other's does not (half-open convention), and the x-intercept strictly exceeds
the point's x. -/
theorem point_in_ring_eq_spec (pt : Point) (ring : Ring) :
    point_in_ring pt ring = pointInRingSpec pt ring := by
  unfold point_in_ring pointInRingSpec
  rw [pir_loop_spec]
  simp

/-! ## C6: deduplication of intersection records -/

/-- The subject (outer ring plus hole) of the C6 counterexample: a thin
vertical strip of width `1.5 * EPS` with a hole whose walls sit `0.7 * EPS`
and `0.8 * EPS` from the left wall; all four walls cross the clipper's top
edge `y = 1`. -/
def c6subject : PolygonModel :=
  { rings := [[(0, 0), (3 / 200000000, 0), (3 / 200000000, 2), (0, 2)],
              [(7 / 1000000000, 1/2), (1 / 125000000, 1/2),
               (1 / 125000000, 3/2), (7 / 1000000000, 3/2)]] }

/-- The clipper of the C6 counterexample: a square whose top edge `y = 1`
crosses all four subject walls. -/
def c6clipper : PolygonModel :=
  { rings := [[(-1, -1), (1, -1), (1, 1), (-1, 1)]] }

/-- Counterexample to C6 as stated: the builder collects four intersection
records; the third record's point is `EPS`-equal both to the first and to the
second record's point (while first and second are not `EPS`-equal).  If
records with `EPS`-equal points were always merged into a single record, all
three would end up in one record; instead the greedy first-match loop merges
the third (and fourth) into the *first* record and keeps the second separate,
so the `EPS`-equal pair (third, second) ends up split across two different
merged records. -/
theorem dedup_claim_counterexample :
    (interRecords c6subject c6clipper).map Rec.pt =
      [(3 / 200000000, 1), (0, 1), (1 / 125000000, 1), (7 / 1000000000, 1)] ∧
    point_eq (1 / 125000000, 1) (0, 1) = true ∧
    point_eq (1 / 125000000, 1) (3 / 200000000, 1) = true ∧
    point_eq (3 / 200000000, 1) (0, 1) = false ∧
    (dedupRecs (interRecords c6subject c6clipper)).map Rec.pt =
      [(3 / 200000000, 1), (0, 1)] := by
  refine ⟨by decide, by decide, by decide, by decide, by decide⟩

/-- C6 (amended): the deduplication loop is greedy with first-seen
representatives.  Each incoming record is merged into the *first* retained
record whose point is `EPS`-equal to it (else retained as new) — the snoc law
below; every retained record keeps the point and edges of the first record of
its merge class (the projection is a sublist of the input); every input record
has a retained record `EPS`-equal to it whose alphas are no larger than its
own; and each retained record's alpha on each side is attained by some input
record `EPS`-equal to it (the minimum over its merged records). -/
theorem dedup_first_seen_min (l : List Rec) :
    ((dedupRecs l).map (fun u => (u.pt, u.subj_edge, u.clip_edge))).Sublist
        (l.map fun r => (r.pt, r.subj_edge, r.clip_edge)) ∧
    (∀ r ∈ l, ∃ u ∈ dedupRecs l, point_eq u.pt r.pt = true ∧
        u.subj_alpha ≤ r.subj_alpha ∧ u.clip_alpha ≤ r.clip_alpha) ∧
    (∀ u ∈ dedupRecs l,
        (∃ r ∈ l, point_eq u.pt r.pt = true ∧ u.subj_alpha = r.subj_alpha) ∧
        (∃ r ∈ l, point_eq u.pt r.pt = true ∧ u.clip_alpha = r.clip_alpha)) ∧
    (∀ r : Rec, dedupRecs (l ++ [r]) = dedupStep (dedupRecs l) r) := by
  have hsnoc : ∀ (l : List Rec) (r : Rec), dedupRecs (l ++ [r]) = dedupStep (dedupRecs l) r := by
    intro l r
    unfold dedupRecs
    rw [List.foldl_append]
    rfl
  have LA : ∀ (acc : List Rec) (r : Rec),
      (dedupStep acc r).map (fun u => (u.pt, u.subj_edge, u.clip_edge)) =
        acc.map (fun u => (u.pt, u.subj_edge, u.clip_edge)) ∨
      (dedupStep acc r).map (fun u => (u.pt, u.subj_edge, u.clip_edge)) =
        acc.map (fun u => (u.pt, u.subj_edge, u.clip_edge)) ++ [(r.pt, r.subj_edge, r.clip_edge)] := by
    intro acc r
    induction acc with
    | nil => simp [dedupStep]
    | cons u us ih =>
      by_cases h : point_eq u.pt r.pt = true
      · left
        simp [dedupStep, h, mergeAlphas]
      · rw [dedupStep, if_neg h]
        rcases ih with ih | ih
        · left; simp [ih]
        · right; simp [ih]
  have LB : ∀ (acc : List Rec) (r : Rec), ∀ u ∈ acc,
      ∃ u2 ∈ dedupStep acc r, u2.pt = u.pt ∧
        u2.subj_alpha ≤ u.subj_alpha ∧ u2.clip_alpha ≤ u.clip_alpha := by
    intro acc r
    induction acc with
    | nil => simp
    | cons v vs ih =>
      intro u hu
      by_cases h : point_eq v.pt r.pt = true
      · rw [dedupStep, if_pos h]
        rcases List.mem_cons.1 hu with rfl | hu2
        · exact ⟨mergeAlphas u r, List.mem_cons_self _ _,
            rfl, min_le_left _ _, min_le_left _ _⟩
        · exact ⟨u, List.mem_cons_of_mem _ hu2, rfl, le_refl _, le_refl _⟩
      · rw [dedupStep, if_neg h]
        rcases List.mem_cons.1 hu with rfl | hu2
        · exact ⟨u, List.mem_cons_self _ _, rfl, le_refl _, le_refl _⟩
        · rcases ih u hu2 with ⟨u2, hmem, h1, h2, h3⟩
          exact ⟨u2, List.mem_cons_of_mem _ hmem, h1, h2, h3⟩
  have LC : ∀ (acc : List Rec) (r : Rec),
      ∃ u ∈ dedupStep acc r, point_eq u.pt r.pt = true ∧
        u.subj_alpha ≤ r.subj_alpha ∧ u.clip_alpha ≤ r.clip_alpha := by
    intro acc r
    induction acc with
    | nil => exact ⟨r, List.mem_cons_self _ _, point_eq_refl _, le_refl _, le_refl _⟩
    | cons v vs ih =>
      by_cases h : point_eq v.pt r.pt = true
      · rw [dedupStep, if_pos h]
        exact ⟨mergeAlphas v r, List.mem_cons_self _ _, h,
          min_le_right _ _, min_le_right _ _⟩
      · rw [dedupStep, if_neg h]
        rcases ih with ⟨u, hmem, h1, h2, h3⟩
        exact ⟨u, List.mem_cons_of_mem _ hmem, h1, h2, h3⟩
  have LD : ∀ (acc : List Rec) (r : Rec), ∀ u ∈ dedupStep acc r,
      u ∈ acc ∨ u = r ∨ ∃ y ∈ acc, point_eq y.pt r.pt = true ∧ u = mergeAlphas y r := by
    intro acc r
    induction acc with
    | nil =>
      intro u hu
      rcases List.mem_singleton.1 hu with rfl
      exact Or.inr (Or.inl rfl)
    | cons v vs ih =>
      intro u hu
      by_cases h : point_eq v.pt r.pt = true
      · rw [dedupStep, if_pos h] at hu
        rcases List.mem_cons.1 hu with rfl | hu2
        · exact Or.inr (Or.inr ⟨v, List.mem_cons_self _ _, h, rfl⟩)
        · exact Or.inl (List.mem_cons_of_mem _ hu2)
      · rw [dedupStep, if_neg h] at hu
        rcases List.mem_cons.1 hu with rfl | hu2
        · exact Or.inl (List.mem_cons_self _ _)
        · rcases ih u hu2 with h2 | h2 | ⟨y, hy, h3, h4⟩
          · exact Or.inl (List.mem_cons_of_mem _ h2)
          · exact Or.inr (Or.inl h2)
          · exact Or.inr (Or.inr ⟨y, List.mem_cons_of_mem _ hy, h3, h4⟩)
  induction l using List.reverseRecOn with
  | nil => exact ⟨by simp [dedupRecs], by simp, by simp [dedupRecs], hsnoc []⟩
  | append_singleton l r ih =>
    obtain ⟨ih1, ih2, ih3, -⟩ := ih
    refine ⟨?_, ?_, ?_, hsnoc _⟩
    · rw [hsnoc]
      rcases LA (dedupRecs l) r with h | h
      · rw [h, List.map_append]
        exact ih1.trans (List.sublist_append_left _ _)
      · rw [h, List.map_append]
        exact List.Sublist.append ih1 (List.Sublist.refl _)
    · intro r2 hr2
      rw [hsnoc]
      rcases List.mem_append.1 hr2 with h | h
      · rcases ih2 r2 h with ⟨u, hu, h1, h2, h3⟩
        rcases LB (dedupRecs l) r u hu with ⟨u2, hu2, e1, e2, e3⟩
        exact ⟨u2, hu2, by rw [e1]; exact h1, le_trans e2 h2, le_trans e3 h3⟩
      · rcases List.mem_singleton.1 h with rfl
        exact LC (dedupRecs l) r2
    · intro u hu
      rw [hsnoc] at hu
      rcases LD (dedupRecs l) r u hu with h | h | ⟨y, hy, hpe, rfl⟩
      · rcases ih3 u h with ⟨⟨r1, hr1, e1, e2⟩, ⟨r2, hr2, f1, f2⟩⟩
        exact ⟨⟨r1, List.mem_append_left _ hr1, e1, e2⟩,
               ⟨r2, List.mem_append_left _ hr2, f1, f2⟩⟩
      · subst h
        exact ⟨⟨u, List.mem_append_right _ (List.mem_singleton.2 rfl), point_eq_refl _, rfl⟩,
               ⟨u, List.mem_append_right _ (List.mem_singleton.2 rfl), point_eq_refl _, rfl⟩⟩
      · rcases ih3 y hy with ⟨⟨r1, hr1, e1, e2⟩, ⟨r2, hr2, f1, f2⟩⟩
        constructor
        · rcases min_choice y.subj_alpha r.subj_alpha with h | h
          · exact ⟨r1, List.mem_append_left _ hr1, e1, by simpa [mergeAlphas, h] using e2⟩
          · exact ⟨r, List.mem_append_right _ (List.mem_singleton.2 rfl), hpe,
              by simpa [mergeAlphas] using h⟩
        · rcases min_choice y.clip_alpha r.clip_alpha with h | h
          · exact ⟨r2, List.mem_append_left _ hr2, f1, by simpa [mergeAlphas, h] using f2⟩
          · exact ⟨r, List.mem_append_right _ (List.mem_singleton.2 rfl), hpe,
              by simpa [mergeAlphas] using h⟩

/-! ## C2: size and separation of returned rings -/

/-- Counterexample to C2 as stated: a degenerate two-point subject "ring"
strictly inside the clipper produces no intersection records, so the
containment fallback returns subject's rings verbatim — a returned ring with
only 2 points, violating the minimum ring size for this pair of input
polygons. -/
theorem min_ring_size_counterexample :
    weiler_atherton_clip (some { rings := [[(1,1),(2,1)]] })
        (some { rings := [[(0,0),(5,0),(5,5),(0,5)]] })
      = [[(1,1),(2,1)]] := by decide

theorem cleanPts_step_chain (acc : List Point) (p : Point)
    (h : List.Chain' (fun p q => point_eq p q = false) acc) :
    List.Chain' (fun p q => point_eq p q = false)
      (if acc = [] then acc ++ [p]
       else if point_eq (acc.getLastD (0, 0)) p then acc else acc ++ [p]) := by
  by_cases h0 : acc = []
  · simp [h0]
  · rw [if_neg h0]
    by_cases h1 : point_eq (acc.getLastD (0, 0)) p = true
    · rw [if_pos h1]; exact h
    · rw [if_neg h1]
      rw [List.chain'_append]
      refine ⟨h, List.chain'_singleton p, ?_⟩
      intro x hx y hy
      rw [List.head?_cons, Option.mem_def, Option.some.injEq] at hy
      subst hy
      have : acc.getLastD (0, 0) = x := by
        rw [List.getLastD_eq_getLast?, Option.mem_def.1 hx]
        rfl
      rw [← this]
      simpa using h1

theorem cleanPts_chain (pts : List Point) :
    List.Chain' (fun p q => point_eq p q = false) (cleanPts pts) := by
  suffices h : ∀ acc, List.Chain' (fun p q => point_eq p q = false) acc →
      List.Chain' (fun p q => point_eq p q = false)
        (pts.foldl (fun acc p =>
          if acc = [] then acc ++ [p]
          else if point_eq (acc.getLastD (0, 0)) p then acc else acc ++ [p]) acc) by
    exact h [] List.chain'_nil
  induction pts with
  | nil => intro acc h; exact h
  | cons p ps ih =>
    intro acc h
    exact ih _ (cleanPts_step_chain acc p h)

theorem build_results_ring_prop (g : Graphs) :
    ∀ r ∈ (build_results_from_nodes g).1,
      3 ≤ r.length ∧ List.Chain' (fun p q => point_eq p q = false) r := by
  suffices h : ∀ (ps : List (ℕ × ℕ)) (st : List Ring × Graphs),
      (∀ r ∈ st.1, 3 ≤ r.length ∧ List.Chain' (fun p q => point_eq p q = false) r) →
      ∀ r ∈ (ps.foldl buildStep st).1,
        3 ≤ r.length ∧ List.Chain' (fun p q => point_eq p q = false) r by
    exact h (interPositions g) ([], g) (by simp)
  intro ps
  induction ps with
  | nil => intro st h; exact h
  | cons pos ps ih =>
    intro st h
    rw [List.foldl_cons]
    apply ih
    unfold buildStep
    by_cases h1 : (st.2.node (Side.subj, pos.1, pos.2)).visited = true
    · rw [if_pos h1]; exact h
    · rw [if_neg h1]
      by_cases h2 : (st.2.node (Side.subj, pos.1, pos.2)).neighbor = none
      · rw [if_pos h2]; exact h
      · rw [if_neg h2]
        dsimp only
        by_cases h3 : 3 ≤ (cleanPts (traceOne st.2 pos.1 pos.2).2).length
        · rw [if_pos h3]
          intro r hr
          rcases List.mem_append.1 hr with hr | hr
          · exact h r hr
          · rcases List.mem_singleton.1 hr with rfl
            exact ⟨h3, cleanPts_chain _⟩
        · rw [if_neg h3]
          exact h

/-- C2 (amended): whenever the builder finds at least one intersection node
(so that the result comes from the ring tracer rather than the verbatim
containment fallback), every ring returned by `clip` has at least 3 points
and no two consecutive points `EPS`-equal. -/
theorem clip_rings_clean (s c : PolygonModel)
    (h : ((insert_intersections s c).subj.any fun ring => ring.any fun n => n.is_inter) = true) :
    ∀ r ∈ weiler_atherton_clip (some s) (some c),
      3 ≤ r.length ∧ List.Chain' (fun p q => point_eq p q = false) r := by
  intro r hr
  simp only [weiler_atherton_clip, h, if_true] at hr
  exact build_results_ring_prop _ r hr

/-- Witness for C2 (amended): the two overlapping squares of the spec's first
concrete scenario; the builder finds intersections, and the single returned
ring has 4 pairwise separated points. -/
theorem clip_rings_clean_witness :
    (((insert_intersections { rings := [[(0,0),(4,0),(4,4),(0,4)]] }
        { rings := [[(2,2),(6,2),(6,6),(2,6)]] }).subj.any
          fun ring => ring.any fun n => n.is_inter) = true) ∧
    (3 ≤ ([((4:ℚ),(2:ℚ)),(4,4),(2,4),(2,2)] : List Point).length ∧
      List.Chain' (fun p q => point_eq p q = false)
        ([((4:ℚ),(2:ℚ)),(4,4),(2,4),(2,2)] : List Point)) :=
  ⟨by decide,
   clip_rings_clean { rings := [[(0,0),(4,0),(4,4),(0,4)]] }
     { rings := [[(2,2),(6,2),(6,6),(2,6)]] } (by decide)
     ([((4:ℚ),(2:ℚ)),(4,4),(2,4),(2,2)] : List Point) (by decide)⟩

/-! ## C8: the classifier's probe point -/

/-- `EPS` as a real number. -/
noncomputable def EPSR : ℝ := 1 / 100000000

/-- `math.hypot` over the reals. -/
noncomputable def hypotR (dx dy : ℝ) : ℝ := Real.sqrt (dx * dx + dy * dy)

/-- The probe computation of `mark_entry_exit` (the lines computing
`dx, dy, norm, ux, uy, offset, probe`), modelled exactly over `ℝ` with the
real square root. -/
noncomputable def probePointR (p nxt : ℝ × ℝ) : ℝ × ℝ :=
  let dx := nxt.1 - p.1
  let dy := nxt.2 - p.2
  let norm := hypotR dx dy
  if norm < EPSR then (p.1 + 1 * (EPSR * 100), p.2 + 0 * (EPSR * 100))
  else (p.1 + dx / norm * max (EPSR * 10) (norm * (1 / 10000)),
        p.2 + dy / norm * max (EPSR * 10) (norm * (1 / 10000)))

/-- C8: when the direction toward the next `EPS`-distinct neighbor has norm at
least `EPS`, the probe is the node's point plus the unit direction times
`max(10 EPS, edge length * 1e-4)`; when the norm is below `EPS`, the probe
uses direction `(1, 0)` with offset `100 EPS`. -/
theorem probePointR_spec (p nxt : ℝ × ℝ) :
    (EPSR ≤ hypotR (nxt.1 - p.1) (nxt.2 - p.2) →
      probePointR p nxt =
        (p.1 + (nxt.1 - p.1) / hypotR (nxt.1 - p.1) (nxt.2 - p.2) *
            max (EPSR * 10) (hypotR (nxt.1 - p.1) (nxt.2 - p.2) * (1 / 10000)),
         p.2 + (nxt.2 - p.2) / hypotR (nxt.1 - p.1) (nxt.2 - p.2) *
            max (EPSR * 10) (hypotR (nxt.1 - p.1) (nxt.2 - p.2) * (1 / 10000)))) ∧
    (hypotR (nxt.1 - p.1) (nxt.2 - p.2) < EPSR →
      probePointR p nxt = (p.1 + EPSR * 100, p.2)) := by
  constructor
  · intro h
    unfold probePointR
    rw [if_neg (not_lt.2 h)]
  · intro h
    unfold probePointR
    rw [if_pos h]
    norm_num

/-- Witness for C8 at `p = (0,0)`, `nxt = (3,4)`: the norm is `5 ≥ EPS`, the
offset is `max(1e-7, 5e-4) = 5e-4`, and the probe is
`(3/5, 4/5) * 5e-4 = (3/10000, 1/2500)`. -/
theorem probePointR_spec_witness :
    EPSR ≤ hypotR ((3:ℝ) - 0) ((4:ℝ) - 0) ∧
    probePointR ((0:ℝ), (0:ℝ)) ((3:ℝ), (4:ℝ)) = ((3:ℝ) / 10000, (1:ℝ) / 2500) := by
  have h5 : hypotR ((3:ℝ) - 0) ((4:ℝ) - 0) = 5 := by
    unfold hypotR
    rw [show ((3:ℝ) - 0) * ((3:ℝ) - 0) + ((4:ℝ) - 0) * ((4:ℝ) - 0) = 5 ^ 2 by norm_num]
    exact Real.sqrt_sq (by norm_num)
  have hle : EPSR ≤ hypotR ((3:ℝ) - 0) ((4:ℝ) - 0) := by
    rw [h5]; unfold EPSR; norm_num
  refine ⟨hle, ?_⟩
  have h := (probePointR_spec ((0:ℝ), (0:ℝ)) ((3:ℝ), (4:ℝ))).1 hle
  rw [h, h5]
  unfold EPSR
  rw [max_eq_right (by norm_num)]
  norm_num

/-- The rational probe model used inside the executable pipeline agrees with
the exact real model on the relative-offset branch (edge length at least
`100000 * EPS`), where the square root cancels. -/
theorem probe_point_agrees (p nxt : Point)
    (h : ((100000 * EPS) ^ 2 : ℚ) ≤
      (nxt.1 - p.1) * (nxt.1 - p.1) + (nxt.2 - p.2) * (nxt.2 - p.2)) :
    (((probe_point p nxt).1 : ℚ) : ℝ)
        = (probePointR ((p.1 : ℝ), (p.2 : ℝ)) ((nxt.1 : ℝ), (nxt.2 : ℝ))).1 ∧
    (((probe_point p nxt).2 : ℚ) : ℝ)
        = (probePointR ((p.1 : ℝ), (p.2 : ℝ)) ((nxt.1 : ℝ), (nxt.2 : ℝ))).2 := by
  have hEPS : (0 : ℚ) < EPS := by norm_num [EPS]
  have hnotlt : ¬ ((nxt.1 - p.1) * (nxt.1 - p.1) + (nxt.2 - p.2) * (nxt.2 - p.2) < EPS ^ 2) := by
    rw [not_lt]
    refine le_trans ?_ h
    rw [show ((100000 * EPS) ^ 2 : ℚ) = 10000000000 * EPS ^ 2 by ring]
    nlinarith [sq_nonneg EPS]
  have hge : ((100000 * EPS) ^ 2 : ℚ) ≤
      (nxt.1 - p.1) * (nxt.1 - p.1) + (nxt.2 - p.2) * (nxt.2 - p.2) := h
  -- the real norm
  set dxr : ℝ := ((nxt.1 : ℝ) - (p.1 : ℝ)) with hdxr
  set dyr : ℝ := ((nxt.2 : ℝ) - (p.2 : ℝ)) with hdyr
  have hcast : dxr * dxr + dyr * dyr
      = (((nxt.1 - p.1) * (nxt.1 - p.1) + (nxt.2 - p.2) * (nxt.2 - p.2) : ℚ) : ℝ) := by
    push_cast [hdxr, hdyr]
    ring
  have hnormsq_ge : ((1/1000 : ℝ)) ^ 2 ≤ dxr * dxr + dyr * dyr := by
    rw [hcast]
    have : ((100000 * EPS) ^ 2 : ℚ) = (1/1000 : ℚ) ^ 2 := by norm_num [EPS]
    rw [this] at hge
    have := (Rat.cast_le (K := ℝ)).2 hge
    push_cast at this ⊢
    linarith
  have hnorm_ge : (1/1000 : ℝ) ≤ hypotR dxr dyr := by
    unfold hypotR
    have h1 : (1/1000 : ℝ) = Real.sqrt ((1/1000) ^ 2) := (Real.sqrt_sq (by norm_num)).symm
    rw [h1]
    exact Real.sqrt_le_sqrt hnormsq_ge
  have hnorm_pos : (0 : ℝ) < hypotR dxr dyr := lt_of_lt_of_le (by norm_num) hnorm_ge
  have hnotltR : ¬ (hypotR dxr dyr < EPSR) := by
    rw [not_lt]
    refine le_trans ?_ hnorm_ge
    unfold EPSR
    norm_num
  have hmax : max (EPSR * 10) (hypotR dxr dyr * (1 / 10000)) = hypotR dxr dyr * (1 / 10000) := by
    apply max_eq_right
    unfold EPSR
    nlinarith [hnorm_ge]
  have hne : hypotR dxr dyr ≠ 0 := ne_of_gt hnorm_pos
  have hstep : probePointR ((p.1 : ℝ), (p.2 : ℝ)) ((nxt.1 : ℝ), (nxt.2 : ℝ))
      = ((p.1 : ℝ) + dxr * (1 / 10000), (p.2 : ℝ) + dyr * (1 / 10000)) := by
    unfold probePointR
    dsimp only
    rw [← hdxr, ← hdyr, if_neg hnotltR, hmax, Prod.mk.injEq]
    constructor
    · field_simp
    · field_simp
  have hstepQ : probe_point p nxt
      = (p.1 + (nxt.1 - p.1) * (1 / 10000), p.2 + (nxt.2 - p.2) * (1 / 10000)) := by
    unfold probe_point
    dsimp only
    rw [if_neg hnotlt, if_pos (by
      rw [show ((100000 : ℚ) * EPS) ^ 2 = (100000 * EPS) ^ 2 by ring]
      exact hge)]
  rw [hstepQ, hstep]
  constructor
  · show ((p.1 + (nxt.1 - p.1) * (1 / 10000) : ℚ) : ℝ) = (p.1 : ℝ) + dxr * (1 / 10000)
    rw [hdxr]
    push_cast
    ring
  · show ((p.2 + (nxt.2 - p.2) * (1 / 10000) : ℚ) : ℝ) = (p.2 : ℝ) + dyr * (1 / 10000)
    rw [hdyr]
    push_cast
    ring

/-! ## Positional reads and writes of the node graph -/

theorem updAt_of_ge {α : Type} (l : List α) (i : ℕ) (f : α → α) (h : l.length ≤ i) :
    updAt l i f = l := by
  induction l generalizing i with
  | nil => rfl
  | cons x xs ih =>
    cases i with
    | zero => simp at h
    | succ n =>
      rw [updAt, ih]
      simpa using h

theorem getD_updAt_ne {α : Type} (l : List α) (i j : ℕ) (f : α → α) (d : α) (h : i ≠ j) :
    (updAt l i f).getD j d = l.getD j d := by
  induction l generalizing i j with
  | nil => rfl
  | cons x xs ih =>
    cases i with
    | zero =>
      cases j with
      | zero => exact absurd rfl h
      | succ m => rfl
    | succ n =>
      cases j with
      | zero => rfl
      | succ m =>
        rw [updAt]
        show (updAt xs n f).getD m d = xs.getD m d
        exact ih n m (fun e => h (by rw [e]))

theorem getD_updAt_self {α : Type} (l : List α) (i : ℕ) (f : α → α) (d : α)
    (h : i < l.length) :
    (updAt l i f).getD i d = f (l.getD i d) := by
  induction l generalizing i with
  | nil => simp at h
  | cons x xs ih =>
    cases i with
    | zero => rfl
    | succ n =>
      rw [updAt]
      show (updAt xs n f).getD n d = f (xs.getD n d)
      exact ih n (by simpa using h)

/-- A position that actually indexes a node of the graph. -/
def validPos (g : Graphs) (q : Side × ℕ × ℕ) : Prop :=
  q.2.1 < (g.arena q.1).length ∧ q.2.2 < ((g.arena q.1).getD q.2.1 []).length

instance validPos_decidable (g : Graphs) (q : Side × ℕ × ℕ) : Decidable (validPos g q) :=
  inferInstanceAs (Decidable (_ ∧ _))

theorem arena_upd (g : Graphs) (q : Side × ℕ × ℕ) (f : Node → Node) (s : Side) :
    (g.upd q f).arena s =
      if s = q.1 then updNodes (g.arena q.1) q.2.1 q.2.2 f else g.arena s := by
  obtain ⟨qs, qr, qi⟩ := q
  cases qs <;> cases s <;> simp [Graphs.upd, Graphs.arena]

theorem arena_upd_length (g : Graphs) (q : Side × ℕ × ℕ) (f : Node → Node) (s : Side) :
    ((g.upd q f).arena s).length = (g.arena s).length := by
  rw [arena_upd]
  by_cases h : s = q.1
  · rw [if_pos h, h, updNodes, updAt_length]
  · rw [if_neg h]

theorem ring_upd_length (g : Graphs) (q : Side × ℕ × ℕ) (f : Node → Node) (s : Side) (r : ℕ) :
    (((g.upd q f).arena s).getD r []).length = ((g.arena s).getD r []).length := by
  rw [arena_upd]
  by_cases h : s = q.1
  · rw [if_pos h, h, updNodes]
    by_cases h2 : q.2.1 = r
    · by_cases h3 : r < (g.arena q.1).length
      · rw [h2, getD_updAt_self _ _ _ _ (h2 ▸ h3), updAt_length]
      · rw [h2] at *
        rw [updAt_of_ge _ _ _ (le_of_not_lt h3)]
    · rw [getD_updAt_ne _ _ _ _ _ h2]
  · rw [if_neg h]

theorem node_upd_ne (g : Graphs) (q q2 : Side × ℕ × ℕ) (f : Node → Node) (h : q2 ≠ q) :
    (g.upd q f).node q2 = g.node q2 := by
  unfold Graphs.node
  rw [arena_upd]
  by_cases hs : q2.1 = q.1
  · rw [if_pos hs, updNodes]
    by_cases hr : q.2.1 = q2.2.1
    · by_cases hlen : q.2.1 < (g.arena q.1).length
      · rw [hr, getD_updAt_self _ _ _ _ (hr ▸ hlen)]
        have hi : q.2.2 ≠ q2.2.2 := by
          intro e
          exact h (by
            obtain ⟨a1, b1, c1⟩ := q2
            obtain ⟨a2, b2, c2⟩ := q
            simp at hs hr e
            simp [hs, hr.symm, e.symm])
        rw [getD_updAt_ne _ _ _ _ _ hi, hs]
      · rw [updAt_of_ge _ _ _ (le_of_not_lt hlen), hs]
    · rw [getD_updAt_ne _ _ _ _ _ hr, hs]
  · rw [if_neg hs]

theorem node_upd_self (g : Graphs) (q : Side × ℕ × ℕ) (f : Node → Node)
    (hv : validPos g q) :
    (g.upd q f).node q = f (g.node q) := by
  unfold Graphs.node
  rw [arena_upd, if_pos rfl, updNodes, getD_updAt_self _ _ _ _ hv.1,
      getD_updAt_self _ _ _ _ hv.2]

/-- A node that reads as an intersection node sits at a valid position (the
out-of-range placeholder is not an intersection node). -/
theorem node_inter_valid (g : Graphs) (q : Side × ℕ × ℕ)
    (h : (g.node q).is_inter = true) : validPos g q := by
  unfold validPos
  by_cases h1 : q.2.1 < (g.arena q.1).length
  · refine ⟨h1, ?_⟩
    by_cases h2 : q.2.2 < ((g.arena q.1).getD q.2.1 []).length
    · exact h2
    · exfalso
      unfold Graphs.node at h
      rw [List.getD_eq_default _ _ (le_of_not_lt h2)] at h
      simp [defNode] at h
  · exfalso
    unfold Graphs.node at h
    rw [List.getD_eq_default _ _ (le_of_not_lt h1)] at h
    simp [defNode] at h

/-! ## C3: complementarity of entry/exit classification -/

/-- One node's cross-link well-formedness: an intersection node carries a
neighbor reference to a valid intersection node on the *other* side whose own
reference points back (the shape `insert_intersections` establishes). -/
def linkOKB (g : Graphs) (s : Side) (r i : ℕ) : Bool :=
  let n := g.node (s, r, i)
  !n.is_inter ||
  match n.neighbor with
  | some q2 =>
    decide (q2.1 = s.flip) && decide (q2.2.1 < (g.arena q2.1).length) &&
    decide (q2.2.2 < ((g.arena q2.1).getD q2.2.1 []).length) &&
    (g.node q2).is_inter && decide ((g.node q2).neighbor = some (s, r, i))
  | none => false

/-- Every intersection node of the graph is involutively cross-linked. -/
def wellLinkedB (g : Graphs) : Bool :=
  [Side.subj, Side.clip].all fun s =>
    (List.range (g.arena s).length).all fun r =>
      (List.range ((g.arena s).getD r []).length).all fun i => linkOKB g s r i

/-- No node carries an entry/exit classification yet (the state in which
`insert_intersections` hands the graph to `mark_entry_exit`). -/
def entriesNoneB (g : Graphs) : Bool :=
  [Side.subj, Side.clip].all fun s =>
    (g.arena s).all fun ring => ring.all fun n => n.is_entry = none

theorem wellLinkedB_spec (g : Graphs) (hg : wellLinkedB g = true)
    (q : Side × ℕ × ℕ) (hv : validPos g q) (hi : (g.node q).is_inter = true) :
    ∃ q2 : Side × ℕ × ℕ, (g.node q).neighbor = some q2 ∧ q2.1 = q.1.flip ∧
      validPos g q2 ∧ (g.node q2).is_inter = true ∧ (g.node q2).neighbor = some q := by
  obtain ⟨qs, qr, qi⟩ := q
  have h1 : linkOKB g qs qr qi = true := by
    have h2 := List.all_eq_true.1 hg qs (by cases qs <;> simp)
    have h3 := List.all_eq_true.1 h2 qr (List.mem_range.2 hv.1)
    exact List.all_eq_true.1 h3 qi (List.mem_range.2 hv.2)
  unfold linkOKB at h1
  rw [Bool.or_eq_true] at h1
  rcases h1 with h1 | h1
  · rw [hi] at h1
    simp at h1
  · revert h1
    cases hnb : (g.node (qs, qr, qi)).neighbor with
    | none => intro h1; simp at h1
    | some q2 =>
      intro h1
      simp only [Bool.and_eq_true, decide_eq_true_eq] at h1
      exact ⟨q2, rfl, h1.1.1.1.1, ⟨h1.1.1.1.2, h1.1.1.2⟩, h1.1.2, h1.2⟩

theorem getD_mem {α : Type} (l : List α) (i : ℕ) (d : α) (h : i < l.length) :
    l.getD i d ∈ l := by
  rw [List.getD_eq_getElem l d h]
  exact List.getElem_mem h

theorem entriesNoneB_spec (g : Graphs) (hg : entriesNoneB g = true)
    (q : Side × ℕ × ℕ) : (g.node q).is_entry = none := by
  obtain ⟨qs, qr, qi⟩ := q
  by_cases h1 : qr < (g.arena qs).length
  · by_cases h2 : qi < ((g.arena qs).getD qr []).length
    · have h3 := List.all_eq_true.1 hg qs (by cases qs <;> simp)
      have h4 := List.all_eq_true.1 h3 ((g.arena qs).getD qr []) (getD_mem _ _ _ h1)
      have h5 := List.all_eq_true.1 h4 (((g.arena qs).getD qr []).getD qi defNode)
        (getD_mem _ _ _ h2)
      exact of_decide_eq_true h5
    · unfold Graphs.node
      rw [List.getD_eq_default _ _ (le_of_not_lt h2)]
      rfl
  · unfold Graphs.node
    rw [List.getD_eq_default _ _ (le_of_not_lt h1)]
    simp [defNode]

/-- Updating at an out-of-range position leaves every node unchanged (the
update is a no-op there, like the Python code never reaching such a state). -/
theorem node_upd_invalid (g : Graphs) (q : Side × ℕ × ℕ) (f : Node → Node)
    (hv : ¬ validPos g q) : (g.upd q f).node q = g.node q := by
  unfold Graphs.node
  rw [arena_upd, if_pos rfl, updNodes]
  unfold validPos at hv
  push_neg at hv
  by_cases h1 : q.2.1 < (g.arena q.1).length
  · rw [getD_updAt_self _ _ _ _ h1, updAt_of_ge _ _ _ (hv h1)]
  · rw [updAt_of_ge _ _ _ (le_of_not_lt h1)]

/-- Agreement of everything `mark_entry_exit` reads except `is_entry`:
the classifier only writes `is_entry`, so this is preserved by its steps. -/
def sameStructure (g0 g : Graphs) : Prop :=
  (∀ s : Side, (g.arena s).length = (g0.arena s).length) ∧
  (∀ (s : Side) (r : ℕ), ((g.arena s).getD r []).length = ((g0.arena s).getD r []).length) ∧
  (∀ q : Side × ℕ × ℕ,
    (g.node q).pt = (g0.node q).pt ∧ (g.node q).is_inter = (g0.node q).is_inter ∧
    (g.node q).neighbor = (g0.node q).neighbor)

theorem sameStructure_refl (g : Graphs) : sameStructure g g :=
  ⟨fun _ => rfl, fun _ _ => rfl, fun _ => ⟨rfl, rfl, rfl⟩⟩

theorem sameStructure_validPos (g0 g : Graphs) (h : sameStructure g0 g)
    (q : Side × ℕ × ℕ) : validPos g q ↔ validPos g0 q := by
  unfold validPos
  rw [h.1, h.2.1]

theorem sameStructure_upd (g0 g : Graphs) (h : sameStructure g0 g)
    (q : Side × ℕ × ℕ) (f : Node → Node)
    (hf : ∀ nd, (f nd).pt = nd.pt ∧ (f nd).is_inter = nd.is_inter ∧
      (f nd).neighbor = nd.neighbor) :
    sameStructure g0 (g.upd q f) := by
  refine ⟨fun s => by rw [arena_upd_length]; exact h.1 s,
          fun s r => by rw [ring_upd_length]; exact h.2.1 s r,
          fun q2 => ?_⟩
  by_cases hq : q2 = q
  · subst hq
    by_cases hv : validPos g q2
    · rw [node_upd_self g q2 _ hv]
      refine ⟨?_, ?_, ?_⟩
      · rw [(hf (g.node q2)).1]; exact (h.2.2 q2).1
      · rw [(hf (g.node q2)).2.1]; exact (h.2.2 q2).2.1
      · rw [(hf (g.node q2)).2.2]; exact (h.2.2 q2).2.2
    · rw [node_upd_invalid g q2 _ hv]
      exact h.2.2 q2
  · rw [node_upd_ne g q q2 _ hq]
    exact h.2.2 q2

theorem sameStructure_upd_entry (g0 g : Graphs) (h : sameStructure g0 g)
    (q : Side × ℕ × ℕ) (b : Option Bool) :
    sameStructure g0 (g.upd q fun nd => { nd with is_entry := b }) :=
  sameStructure_upd g0 g h q _ (fun _ => ⟨rfl, rfl, rfl⟩)

theorem sameStructure_upd_visited (g0 g : Graphs) (h : sameStructure g0 g)
    (q : Side × ℕ × ℕ) (b : Bool) :
    sameStructure g0 (g.upd q fun nd => { nd with visited := b }) :=
  sameStructure_upd g0 g h q _ (fun _ => ⟨rfl, rfl, rfl⟩)

/-- Exhaustive description of what one classifier step does to the graph:
either nothing, or it classifies the node at `(Side.subj, r, i)` (which is an
unclassified intersection node) with some Boolean and writes the negation
through the cross-link when one exists. -/
theorem markStep_cases (c : PolygonModel) (g : Graphs) (r i : ℕ) :
    markStep c g r i = g ∨
    ∃ inside : Bool,
      (g.node (Side.subj, r, i)).is_inter = true ∧
      (g.node (Side.subj, r, i)).is_entry = none ∧
      ((∃ nb, (g.node (Side.subj, r, i)).neighbor = some nb ∧
          markStep c g r i =
            (g.upd (Side.subj, r, i) fun nd => { nd with is_entry := some inside }).upd
              nb fun nd => { nd with is_entry := some (!inside) }) ∨
       ((g.node (Side.subj, r, i)).neighbor = none ∧
          markStep c g r i =
            g.upd (Side.subj, r, i) fun nd => { nd with is_entry := some inside })) := by
  unfold markStep
  dsimp only
  cases hni : (g.node (Side.subj, r, i)).is_inter
  · rw [if_pos (show (!false) = true from rfl)]
    exact Or.inl rfl
  · rw [if_neg (show ¬ ((!true) = true) by decide)]
    by_cases hen : (g.node (Side.subj, r, i)).is_entry ≠ none
    · rw [if_pos hen]
      exact Or.inl rfl
    · rw [if_neg hen]
      rw [not_not] at hen
      cases hnx : markNextIdx g r i
      · exact Or.inl rfl
      · cases hnb : (g.node (Side.subj, r, i)).neighbor with
        | some nb => exact Or.inr ⟨_, rfl, hen, Or.inl ⟨nb, rfl, rfl⟩⟩
        | none => exact Or.inr ⟨_, rfl, hen, Or.inr ⟨rfl, rfl⟩⟩

/-- The complementarity invariant: relative to the fixed link structure of
`g0`, every cross-linked pair in the current state `g` is either still fully
unclassified or classified complementarily. -/
def pairInv (g0 g : Graphs) : Prop :=
  ∀ q : Side × ℕ × ℕ, validPos g0 q → (g0.node q).is_inter = true → q.1 = Side.subj →
    ∀ q2, (g0.node q).neighbor = some q2 →
      ((g.node q).is_entry = none ∧ (g.node q2).is_entry = none) ∨
      (∃ b, (g.node q).is_entry = some b ∧ (g.node q2).is_entry = some (!b))

theorem markStep_inv (g0 : Graphs) (c : PolygonModel) (hwl : wellLinkedB g0 = true)
    (g : Graphs) (hss : sameStructure g0 g) (hpi : pairInv g0 g) (r i : ℕ) :
    sameStructure g0 (markStep c g r i) ∧ pairInv g0 (markStep c g r i) := by
  rcases markStep_cases c g r i with heq | ⟨inside, hni, hen, hcase⟩
  · rw [heq]; exact ⟨hss, hpi⟩
  · set q : Side × ℕ × ℕ := (Side.subj, r, i) with hq
    have hni0 : (g0.node q).is_inter = true := by rw [← (hss.2.2 q).2.1]; exact hni
    have hv0 : validPos g0 q := node_inter_valid g0 q hni0
    have hvg : validPos g q := (sameStructure_validPos g0 g hss q).2 hv0
    obtain ⟨nb, hnb0, hnbside, hnbv0, hnbi0, hback0⟩ := wellLinkedB_spec g0 hwl q hv0 hni0
    have hnbg : (g.node q).neighbor = some nb := by rw [(hss.2.2 q).2.2, hnb0]
    have hqnb : q ≠ nb := by
      intro e
      have h1 : q.1 = nb.1 := by rw [e]
      rw [hnbside, hq] at h1
      exact absurd h1 (by simp [Side.flip])
    rcases hcase with ⟨nb2, hnb2, heq⟩ | ⟨hnone, _⟩
    · rw [hnbg] at hnb2
      have hnb2nb : nb2 = nb := (Option.some.inj hnb2).symm
      rw [hnb2nb] at heq
      have hss1 : sameStructure g0 (g.upd q fun nd => { nd with is_entry := some inside }) :=
        sameStructure_upd_entry g0 g hss q (some inside)
      have hss2 : sameStructure g0 (markStep c g r i) := by
        rw [heq]
        exact sameStructure_upd_entry g0 _ hss1 nb (some (!inside))
      refine ⟨hss2, ?_⟩
      intro q' hv' hi' hside' q2' hnb'
      obtain ⟨nbq', hnbq'0, hnbq'side, hnbq'v, hnbq'i, hbackq'⟩ :=
        wellLinkedB_spec g0 hwl q' hv' hi'
      rw [hnbq'0] at hnb'
      have hq2'nb : q2' = nbq' := (Option.some.inj hnb').symm
      rw [hq2'nb]
      by_cases hqq : q' = q
      · subst hqq
        rw [hnb0] at hnbq'0
        have hnbq : nbq' = nb := (Option.some.inj hnbq'0).symm
        rw [hnbq]
        right
        have hvnb1 : validPos (g.upd q fun nd => { nd with is_entry := some inside }) nb :=
          (sameStructure_validPos g0 _ hss1 nb).2 hnbv0
        refine ⟨inside, ?_, ?_⟩
        · rw [heq, node_upd_ne _ nb q _ hqnb, node_upd_self g q _ hvg]
        · rw [heq, node_upd_self _ nb _ hvnb1]
      · -- untouched pair
        have hq'nb : q' ≠ nb := by
          intro e
          have h1 : q'.1 = nb.1 := by rw [e]
          rw [hside', hnbside, hq] at h1
          exact absurd h1 (by simp [Side.flip])
        have hnbq'q : nbq' ≠ q := by
          intro e
          have h1 : nbq'.1 = q.1 := by rw [e]
          rw [hnbq'side, hside', hq] at h1
          exact absurd h1 (by simp [Side.flip])
        have hnbq'nb : nbq' ≠ nb := by
          intro e
          rw [e, hback0] at hbackq'
          exact hqq (Option.some.inj hbackq').symm
        have e1 : (markStep c g r i).node q' = g.node q' := by
          rw [heq, node_upd_ne _ nb q' _ hq'nb, node_upd_ne _ q q' _ hqq]
        have e2 : (markStep c g r i).node nbq' = g.node nbq' := by
          rw [heq, node_upd_ne _ nb nbq' _ hnbq'nb, node_upd_ne _ q nbq' _ hnbq'q]
        rw [e1, e2]
        exact hpi q' hv' hi' hside' nbq' hnbq'0
    · rw [hnbg] at hnone
      exact absurd hnone (by simp)

theorem mark_fold_inv (g0 : Graphs) (c : PolygonModel) (hwl : wellLinkedB g0 = true)
    (r : ℕ) (l : List ℕ) :
    ∀ g : Graphs, sameStructure g0 g ∧ pairInv g0 g →
      sameStructure g0 (l.foldl (fun g2 i => markStep c g2 r i) g) ∧
      pairInv g0 (l.foldl (fun g2 i => markStep c g2 r i) g) := by
  induction l with
  | nil => intro g h; exact h
  | cons i l ih =>
    intro g h
    exact ih _ ⟨(markStep_inv g0 c hwl g h.1 h.2 r i).1,
                (markStep_inv g0 c hwl g h.1 h.2 r i).2⟩

theorem mark_outer_fold_inv (g0 : Graphs) (c : PolygonModel) (hwl : wellLinkedB g0 = true)
    (rs : List ℕ) :
    ∀ g1 : Graphs, sameStructure g0 g1 ∧ pairInv g0 g1 →
      sameStructure g0 (rs.foldl
        (fun gg ring_idx => (List.range (gg.subj.getD ring_idx []).length).foldl
          (fun g2 i => markStep c g2 ring_idx i) gg) g1) ∧
      pairInv g0 (rs.foldl
        (fun gg ring_idx => (List.range (gg.subj.getD ring_idx []).length).foldl
          (fun g2 i => markStep c g2 ring_idx i) gg) g1) := by
  induction rs with
  | nil => intro g1 h; exact h
  | cons r rs ih =>
    intro g1 h
    exact ih _ (mark_fold_inv g0 c hwl r _ g1 h)

theorem mark_entry_exit_inv (g : Graphs) (c : PolygonModel)
    (hwl : wellLinkedB g = true) (hen : entriesNoneB g = true) :
    sameStructure g (mark_entry_exit g c) ∧ pairInv g (mark_entry_exit g c) := by
  have h0 : sameStructure g g ∧ pairInv g g := by
    refine ⟨sameStructure_refl g, ?_⟩
    intro q _ _ _ q2 _
    exact Or.inl ⟨entriesNoneB_spec g hen q, entriesNoneB_spec g hen q2⟩
  exact mark_outer_fold_inv g c hwl (List.range g.subj.length) g h0

/-- The degenerate subject of the C3 counterexample: a "ring" of three
coincident points sitting on the clipper's boundary. -/
def c3subject : PolygonModel := { rings := [[(0,0),(0,0),(0,0)]] }

/-- The clipper of the C3 counterexample. -/
def c3clipper : PolygonModel := { rings := [[(0,0),(4,0),(4,4),(0,4)]] }

/-- Counterexample to C3 as stated: the degenerate subject produces a
cross-linked intersection-node pair, and `clip` does run the classification
phase (`has_inter` holds), but the classifier skips the subject node — every
node of its ring is `EPS`-coincident, so no probe direction exists — and the
pair ends the phase with `is_entry` unset (`none`) on both sides: not one
true and one false. -/
theorem entry_exit_claim_counterexample :
    ((insert_intersections c3subject c3clipper).node (Side.subj, 0, 1)).is_inter = true ∧
    ((insert_intersections c3subject c3clipper).node (Side.subj, 0, 1)).neighbor
      = some (Side.clip, 0, 1) ∧
    (((insert_intersections c3subject c3clipper).subj.any
        fun ring => ring.any fun n => n.is_inter) = true) ∧
    ((mark_entry_exit (insert_intersections c3subject c3clipper) c3clipper).node
        (Side.subj, 0, 1)).is_entry = none ∧
    ((mark_entry_exit (insert_intersections c3subject c3clipper) c3clipper).node
        (Side.clip, 0, 1)).is_entry = none := by
  refine ⟨by decide, by decide, by decide, by decide, by decide⟩

/-- C3 (amended): after the classification phase, every cross-linked pair
whose subject-side node was classified carries complementary `is_entry`
values (one `true`, one `false`); a pair whose subject node the classifier
skipped as degenerate remains unset on both sides. -/
theorem mark_entry_exit_complementary (g : Graphs) (c : PolygonModel)
    (hwl : wellLinkedB g = true) (hen : entriesNoneB g = true)
    (q : Side × ℕ × ℕ) (hv : validPos g q) (hi : (g.node q).is_inter = true)
    (hs : q.1 = Side.subj) (q2 : Side × ℕ × ℕ) (hnb : (g.node q).neighbor = some q2) :
    (((mark_entry_exit g c).node q).is_entry = none ∧
     ((mark_entry_exit g c).node q2).is_entry = none) ∨
    (∃ b, ((mark_entry_exit g c).node q).is_entry = some b ∧
          ((mark_entry_exit g c).node q2).is_entry = some (!b)) :=
  (mark_entry_exit_inv g c hwl hen).2 q hv hi hs q2 hnb

/-- The graph of the C3 witness: the overlapping squares of the spec's first
scenario. -/
def c3wGraph : Graphs :=
  insert_intersections { rings := [[(0,0),(4,0),(4,4),(0,4)]] }
    { rings := [[(2,2),(6,2),(6,6),(2,6)]] }

/-- The C3 witness graph after classification. -/
def c3wMarked : Graphs := mark_entry_exit c3wGraph { rings := [[(2,2),(6,2),(6,6),(2,6)]] }

/-- Witness for C3 (amended) on the overlapping squares of the spec's first
scenario: the graph built by `insert_intersections` is well-linked and
unclassified, and the theorem applies to the cross-linked pair at subject
position `(0, 2)` and clipper position `(0, 1)`. -/
theorem mark_entry_exit_complementary_witness :
    wellLinkedB c3wGraph = true ∧
    (((c3wMarked.node (Side.subj, 0, 2)).is_entry = none ∧
      (c3wMarked.node (Side.clip, 0, 1)).is_entry = none) ∨
     (∃ b, (c3wMarked.node (Side.subj, 0, 2)).is_entry = some b ∧
           (c3wMarked.node (Side.clip, 0, 1)).is_entry = some (!b))) :=
  ⟨by decide,
   mark_entry_exit_complementary c3wGraph { rings := [[(2,2),(6,2),(6,6),(2,6)]] }
     (by decide) (by decide) (Side.subj, 0, 2) (by decide) (by decide) rfl
     (Side.clip, 0, 1) (by decide)⟩

/-! ## C4: termination of the tracing loop

The proof strategy: relative to the well-linked structure of the graph at
trace start, one loop iteration from a side-consistent intersection-node
cursor walks to the next intersection node of the walked ring and jumps to its
cross-link — an injective function on the finitely many intersection-node
positions.  The orbit of the seed is therefore a cycle, the cursor returns to
the seed (which the returning jump has marked visited), and the stop condition
fires within `totalInter + 2` iterations — independently of the `safety`
budget the source also carries. -/

theorem mod_step (a n : ℕ) : (a % n + 1) % n = (a + 1) % n := by
  conv_rhs => rw [Nat.add_mod]
  rw [Nat.add_mod (a % n) 1, Nat.mod_mod_of_dvd a dvd_rfl]

theorem mod_ne_self (i m n : ℕ) (_hi : i < n) (hm1 : 1 ≤ m) (hmn : m < n) :
    (i + m) % n ≠ i := by
  intro h
  have hd := Nat.div_add_mod (i + m) n
  rw [h] at hd
  have hq : m = n * ((i + m) / n) := by omega
  rcases Nat.eq_zero_or_pos ((i + m) / n) with h0 | h0
  · rw [h0, Nat.mul_zero] at hq
    omega
  · have h2 : n ≤ n * ((i + m) / n) := Nat.le_mul_of_pos_right n h0
    omega

/-- The index result of the ring walk does not depend on the accumulated point
list. -/
theorem walkAux_snd_pts (nodes : List Node) (n i : ℕ) :
    ∀ (fuel j : ℕ) (pts pts2 : List Point),
      (walkAux nodes n i fuel j pts).2 = (walkAux nodes n i fuel j pts2).2 := by
  intro fuel
  induction fuel with
  | zero => intro j pts pts2; rfl
  | succ fuel ih =>
    intro j pts pts2
    rw [walkAux, walkAux]
    cases hInter : (nodes.getD ((j + 1) % n) defNode).is_inter
    · simp only [Bool.false_eq_true, if_false]
      by_cases hji : (j + 1) % n = i
      · rw [if_pos hji, if_pos hji]
      · rw [if_neg hji, if_neg hji]
        exact ih ((j + 1) % n) _ _
    · simp

/-- The index result of the ring walk depends only on the `is_inter` flags of
the walked ring. -/
theorem walkAux_snd_congr (nodes nodes2 : List Node) (n i : ℕ)
    (h : ∀ j, (nodes.getD j defNode).is_inter = (nodes2.getD j defNode).is_inter) :
    ∀ (fuel j : ℕ) (pts : List Point),
      (walkAux nodes n i fuel j pts).2 = (walkAux nodes2 n i fuel j pts).2 := by
  intro fuel
  induction fuel with
  | zero => intro j pts; rfl
  | succ fuel ih =>
    intro j pts
    rw [walkAux, walkAux]
    rw [← h ((j + 1) % n)]
    cases hInter : (nodes.getD ((j + 1) % n) defNode).is_inter
    · simp only [Bool.false_eq_true, if_false]
      by_cases hji : (j + 1) % n = i
      · rw [if_pos hji, if_pos hji]
      · rw [if_neg hji, if_neg hji]
        rw [ih ((j + 1) % n) _]
        exact walkAux_snd_pts nodes2 n i fuel _ _ _
    · simp

/-- The ring walk lands on `(i + k) % n` when `k` is the first positive offset
whose node is an intersection node. -/
theorem walkAux_finds (nodes : List Node) (n i : ℕ) (hi : i < n)
    (k : ℕ) (_hk1 : 1 ≤ k) (hkn : k ≤ n)
    (hkInter : (nodes.getD ((i + k) % n) defNode).is_inter = true)
    (hmin : ∀ m, 1 ≤ m → m < k → (nodes.getD ((i + m) % n) defNode).is_inter = false) :
    ∀ (fuel t : ℕ), t < k → k - t ≤ fuel → ∀ pts,
      (walkAux nodes n i fuel ((i + t) % n) pts).2 = some ((i + k) % n) := by
  intro fuel
  induction fuel with
  | zero =>
    intro t ht hft
    omega
  | succ fuel ih =>
    intro t ht hft pts
    rw [walkAux]
    rw [mod_step (i + t) n]
    rcases eq_or_lt_of_le (Nat.succ_le_of_lt ht) with he | hlt
    · rw [show i + t + 1 = i + k from by omega]
      rw [hkInter]
      simp
    · have hni : (nodes.getD ((i + t + 1) % n) defNode).is_inter = false := by
        have := hmin (t + 1) (by omega) (by omega)
        rw [show i + (t + 1) = i + t + 1 from by ring] at this
        exact this
      rw [hni]
      simp only [Bool.false_eq_true, if_false]
      rw [if_neg (by
        rw [show i + t + 1 = i + (t + 1) from by ring]
        exact mod_ne_self i (t + 1) n hi (by omega) (by omega))]
      have h2 := ih (t + 1) hlt (by omega)
        (if point_eq (pts.getLastD (0, 0)) (nodes.getD ((i + t + 1) % n) defNode).pt = true
         then pts else pts ++ [(nodes.getD ((i + t + 1) % n) defNode).pt])
      rw [show i + (t + 1) = i + t + 1 from by ring] at h2
      exact h2

/-- The index the inner walk of the tracer reaches, as a function of the graph
structure only (the point list is irrelevant by `walkAux_snd_pts`). -/
def walkTarget (g : Graphs) (s : Side) (r i : ℕ) : Option ℕ :=
  let nodes := (g.arena s).getD r []
  (walkAux nodes nodes.length i nodes.length i []).2

/-- From an intersection node the walk finds the cyclically next intersection
node: the first positive offset `k` whose node is an intersection node. -/
theorem ringNext_exists (nodes : List Node) (i : ℕ) (hi : i < nodes.length)
    (hInter : (nodes.getD i defNode).is_inter = true) :
    ∃ k, 1 ≤ k ∧ k ≤ nodes.length ∧
      (∀ m, 1 ≤ m → m < k →
        (nodes.getD ((i + m) % nodes.length) defNode).is_inter = false) ∧
      (nodes.getD ((i + k) % nodes.length) defNode).is_inter = true ∧
      (walkAux nodes nodes.length i nodes.length i []).2
        = some ((i + k) % nodes.length) := by
  have hex : ∃ k, 1 ≤ k ∧ (nodes.getD ((i + k) % nodes.length) defNode).is_inter = true := by
    refine ⟨nodes.length, by omega, ?_⟩
    rw [Nat.add_mod_right, Nat.mod_eq_of_lt hi]
    exact hInter
  have hk1 : 1 ≤ Nat.find hex := (Nat.find_spec hex).1
  have hkInter := (Nat.find_spec hex).2
  have hkn : Nat.find hex ≤ nodes.length :=
    Nat.find_le ⟨by omega, by rw [Nat.add_mod_right, Nat.mod_eq_of_lt hi]; exact hInter⟩
  have hmin : ∀ m, 1 ≤ m → m < Nat.find hex →
      (nodes.getD ((i + m) % nodes.length) defNode).is_inter = false := by
    intro m hm1 hmk
    have h3 := Nat.find_min hex hmk
    rw [not_and] at h3
    exact Bool.eq_false_iff.2 (h3 hm1)
  refine ⟨Nat.find hex, hk1, hkn, hmin, hkInter, ?_⟩
  have hfind := walkAux_finds nodes nodes.length i hi (Nat.find hex) hk1 hkn hkInter hmin
    nodes.length 0 (by omega) (by omega) []
  rw [Nat.add_zero, Nat.mod_eq_of_lt hi] at hfind
  exact hfind

/-- Auxiliary cancellation: if the walk from `i1` reaches the common target
before the walk from `i2` does, then `i1` sits strictly inside `i2`'s scanned
window, contradicting that the window holds no intersection node. -/
theorem ringNext_inj_aux (nodes : List Node) (n i1 i2 k1 k2 : ℕ)
    (h1 : i1 < n) (hk1 : 1 ≤ k1)
    (hi1 : (nodes.getD i1 defNode).is_inter = true)
    (hmin2 : ∀ m, 1 ≤ m → m < k2 → (nodes.getD ((i2 + m) % n) defNode).is_inter = false)
    (hj : (i1 + k1) % n = (i2 + k2) % n) (hlt : k1 < k2) : False := by
  have hcan : (i2 + (k2 - k1)) % n = i1 := by
    have h3 : (i2 + (k2 - k1) + k1) % n = (i1 + k1) % n := by
      rw [show i2 + (k2 - k1) + k1 = i2 + k2 from by omega, hj]
    have h4 := Nat.ModEq.add_right_cancel' k1 h3
    unfold Nat.ModEq at h4
    rw [Nat.mod_eq_of_lt h1] at h4
    exact h4
  have := hmin2 (k2 - k1) (by omega) (by omega)
  rw [hcan, hi1] at this
  exact absurd this (by decide)

/-- Two intersection nodes of the same ring with the same walk target are the
same node. -/
theorem ringNext_inj (nodes : List Node) (n i1 i2 k1 k2 : ℕ)
    (h1 : i1 < n) (h2 : i2 < n)
    (hi1 : (nodes.getD i1 defNode).is_inter = true)
    (hi2 : (nodes.getD i2 defNode).is_inter = true)
    (hk1 : 1 ≤ k1) (hk2 : 1 ≤ k2)
    (hmin1 : ∀ m, 1 ≤ m → m < k1 → (nodes.getD ((i1 + m) % n) defNode).is_inter = false)
    (hmin2 : ∀ m, 1 ≤ m → m < k2 → (nodes.getD ((i2 + m) % n) defNode).is_inter = false)
    (hj : (i1 + k1) % n = (i2 + k2) % n) : i1 = i2 := by
  rcases lt_trichotomy k1 k2 with h | h | h
  · exact absurd (ringNext_inj_aux nodes n i1 i2 k1 k2 h1 hk1 hi1 hmin2 hj h) id
  · subst h
    have h4 := Nat.ModEq.add_right_cancel' k1 hj
    unfold Nat.ModEq at h4
    rw [Nat.mod_eq_of_lt h1, Nat.mod_eq_of_lt h2] at h4
    exact h4
  · exact absurd (ringNext_inj_aux nodes n i2 i1 k2 k1 h2 hk2 hi2 hmin1 hj.symm h) id

/-- The cursor transition of one loop iteration from a side-consistent
intersection-node cursor, as a function of the trace-start graph structure:
walk to the next intersection node of the current ring and jump through its
cross-link (or stay on it when unlinked). -/
def nextPos (g : Graphs) (q : Side × ℕ × ℕ) : Side × ℕ × ℕ :=
  match walkTarget g q.1 q.2.1 q.2.2 with
  | none => q
  | some j =>
    match (g.node (q.1, q.2.1, j)).neighbor with
    | some nb => nb
    | none => (q.1, q.2.1, j)

/-- Everything one transition does, relative to a well-linked graph: the walk
target exists (first intersection node at positive cyclic offset `k`), is
cross-linked, and the cursor jumps to its link on the other side. -/
theorem nextPos_spec (g : Graphs) (hwl : wellLinkedB g = true) (q : Side × ℕ × ℕ)
    (hv : validPos g q) (hi : (g.node q).is_inter = true) :
    ∃ k j, 1 ≤ k ∧
      j = (q.2.2 + k) % ((g.arena q.1).getD q.2.1 []).length ∧
      (∀ m, 1 ≤ m → m < k →
        (g.node (q.1, q.2.1, (q.2.2 + m) % ((g.arena q.1).getD q.2.1 []).length)).is_inter
          = false) ∧
      walkTarget g q.1 q.2.1 q.2.2 = some j ∧
      (g.node (q.1, q.2.1, j)).is_inter = true ∧
      validPos g (q.1, q.2.1, j) ∧
      (g.node (q.1, q.2.1, j)).neighbor = some (nextPos g q) ∧
      validPos g (nextPos g q) ∧ (g.node (nextPos g q)).is_inter = true ∧
      (nextPos g q).1 = q.1.flip ∧
      (g.node (nextPos g q)).neighbor = some (q.1, q.2.1, j) := by
  obtain ⟨k, hk1, hkn, hmin, hkInter, hwalk⟩ :=
    ringNext_exists ((g.arena q.1).getD q.2.1 []) q.2.2 hv.2 hi
  have hn0 : 0 < ((g.arena q.1).getD q.2.1 []).length := Nat.lt_of_le_of_lt (Nat.zero_le _) hv.2
  set n := ((g.arena q.1).getD q.2.1 []).length with hn
  set j := (q.2.2 + k) % n with hj
  have hwt : walkTarget g q.1 q.2.1 q.2.2 = some j := hwalk
  have hjv : validPos g (q.1, q.2.1, j) := ⟨hv.1, Nat.mod_lt _ hn0⟩
  have hji : (g.node (q.1, q.2.1, j)).is_inter = true := hkInter
  obtain ⟨nb, hnb, hnbside, hnbv, hnbi, hback⟩ :=
    wellLinkedB_spec g hwl (q.1, q.2.1, j) hjv hji
  have hnp : nextPos g q = nb := by
    unfold nextPos
    rw [hwt]
    show (match (g.node (q.1, q.2.1, j)).neighbor with
          | some nb => nb
          | none => (q.1, q.2.1, j)) = nb
    rw [hnb]
  refine ⟨k, j, hk1, rfl, ?_, hwt, hji, hjv, ?_, ?_, ?_, ?_, ?_⟩
  · intro m hm1 hmk
    exact hmin m hm1 hmk
  · rw [hnp]; exact hnb
  · rw [hnp]; exact hnbv
  · rw [hnp]; exact hnbi
  · rw [hnp]; exact hnbside
  · rw [hnp]; exact hback

/-- The transition is injective on intersection-node positions: the cross-link
map is an involution and the per-ring walk-target map has disjoint scan
windows. -/
theorem nextPos_inj (g : Graphs) (hwl : wellLinkedB g = true) (q1 q2 : Side × ℕ × ℕ)
    (hv1 : validPos g q1) (hi1 : (g.node q1).is_inter = true)
    (hv2 : validPos g q2) (hi2 : (g.node q2).is_inter = true)
    (heq : nextPos g q1 = nextPos g q2) : q1 = q2 := by
  obtain ⟨k1, j1, hk11, hj1, hmin1, hwt1, hji1, hjv1, hnb1, hnv1, hni1, hns1, hbk1⟩ :=
    nextPos_spec g hwl q1 hv1 hi1
  obtain ⟨k2, j2, hk21, hj2, hmin2, hwt2, hji2, hjv2, hnb2, hnv2, hni2, hns2, hbk2⟩ :=
    nextPos_spec g hwl q2 hv2 hi2
  rw [heq] at hbk1
  rw [hbk2] at hbk1
  have hz : (q2.1, q2.2.1, j2) = (q1.1, q1.2.1, j1) := Option.some.inj hbk1
  have hs : q2.1 = q1.1 := (Prod.ext_iff.1 hz).1
  have hr : q2.2.1 = q1.2.1 := (Prod.ext_iff.1 (Prod.ext_iff.1 hz).2).1
  have hjj : j2 = j1 := (Prod.ext_iff.1 (Prod.ext_iff.1 hz).2).2
  have hv22 : q2.2.2 < ((g.arena q1.1).getD q1.2.1 []).length := by
    have h6 := hv2.2
    rw [hs, hr] at h6
    exact h6
  have hi2b : (((g.arena q1.1).getD q1.2.1 []).getD q2.2.2 defNode).is_inter = true := by
    have he : (q1.1, q1.2.1, q2.2.2) = q2 := by rw [← hs, ← hr]
    have h6 : (g.node (q1.1, q1.2.1, q2.2.2)).is_inter = true := by rw [he]; exact hi2
    exact h6
  have hmin2b : ∀ m, 1 ≤ m → m < k2 →
      (((g.arena q1.1).getD q1.2.1 []).getD
        ((q2.2.2 + m) % ((g.arena q1.1).getD q1.2.1 []).length) defNode).is_inter = false := by
    intro m hm1 hmk
    have h6 := hmin2 m hm1 hmk
    rw [hs, hr] at h6
    exact h6
  have hjeq : (q1.2.2 + k1) % ((g.arena q1.1).getD q1.2.1 []).length
      = (q2.2.2 + k2) % ((g.arena q1.1).getD q1.2.1 []).length := by
    have h5 : (q2.2.2 + k2) % ((g.arena q1.1).getD q1.2.1 []).length = j2 := by
      rw [hj2, hs, hr]
    rw [← hj1, h5, hjj]
  have hieq : q1.2.2 = q2.2.2 :=
    ringNext_inj ((g.arena q1.1).getD q1.2.1 []) ((g.arena q1.1).getD q1.2.1 []).length
      q1.2.2 q2.2.2 k1 k2 hv1.2 hv22 hi1 hi2b hk11 hk21 hmin1 hmin2b hjeq
  exact Prod.ext hs.symm (Prod.ext hr.symm hieq)

theorem iterate_in {α : Type} (S : Finset α) (f : α → α)
    (hmaps : ∀ a ∈ S, f a ∈ S) (x : α) (hx : x ∈ S) :
    ∀ k, f^[k] x ∈ S := by
  intro k
  induction k with
  | zero => exact hx
  | succ k ih =>
    rw [Function.iterate_succ_apply']
    exact hmaps _ ih

theorem iterate_cancel {α : Type} (S : Finset α) (f : α → α)
    (hmaps : ∀ a ∈ S, f a ∈ S)
    (hinj : ∀ a ∈ S, ∀ b ∈ S, f a = f b → a = b)
    (x : α) (hx : x ∈ S) :
    ∀ j d, f^[j + d] x = f^[j] x → f^[d] x = x := by
  intro j
  induction j with
  | zero => intro d h; simpa using h
  | succ j ih =>
    intro d h
    rw [show j + 1 + d = (j + d) + 1 from by omega, Function.iterate_succ_apply',
        Function.iterate_succ_apply'] at h
    exact ih d (hinj _ (iterate_in S f hmaps x hx _) _ (iterate_in S f hmaps x hx _) h)

/-- Orbit return: an injective self-map of a finite set returns every point to
itself within `card` steps. -/
theorem orbit_return {α : Type} [DecidableEq α] (S : Finset α) (f : α → α)
    (hmaps : ∀ a ∈ S, f a ∈ S)
    (hinj : ∀ a ∈ S, ∀ b ∈ S, f a = f b → a = b)
    (x : α) (hx : x ∈ S) : ∃ m, 1 ≤ m ∧ m ≤ S.card ∧ f^[m] x = x := by
  have hmapsto : ∀ k ∈ Finset.range (S.card + 1), f^[k] x ∈ S :=
    fun k _ => iterate_in S f hmaps x hx k
  have hcard : S.card < (Finset.range (S.card + 1)).card := by simp
  obtain ⟨j, hj, k, hk, hne, heq⟩ :=
    Finset.exists_ne_map_eq_of_card_lt_of_maps_to hcard hmapsto
  rw [Finset.mem_range] at hj hk
  rcases Nat.lt_or_ge j k with hlt | hge
  · refine ⟨k - j, by omega, by omega, ?_⟩
    refine iterate_cancel S f hmaps hinj x hx j (k - j) ?_
    rw [show j + (k - j) = k from by omega]
    exact heq.symm
  · have hlt2 : k < j := by omega
    refine ⟨j - k, by omega, by omega, ?_⟩
    refine iterate_cancel S f hmaps hinj x hx k (j - k) ?_
    rw [show k + (j - k) = j from by omega]
    exact heq

/-- All intersection-node positions of one side, in ring order. -/
def sidePositions (g : Graphs) (s : Side) : List (Side × ℕ × ℕ) :=
  (List.range (g.arena s).length).flatMap fun r =>
    (List.range ((g.arena s).getD r []).length).filterMap fun i =>
      if (g.node (s, r, i)).is_inter then some (s, r, i) else none

/-- All intersection-node positions of the graph. -/
def interPosList (g : Graphs) : List (Side × ℕ × ℕ) :=
  sidePositions g Side.subj ++ sidePositions g Side.clip

/-- The total number of intersection nodes of the graph (both sides). -/
def totalInter (g : Graphs) : ℕ := (interPosList g).length

theorem mem_sidePositions (g : Graphs) (s : Side) (q : Side × ℕ × ℕ) :
    q ∈ sidePositions g s ↔ q.1 = s ∧ validPos g q ∧ (g.node q).is_inter = true := by
  unfold sidePositions
  rw [List.mem_flatMap]
  constructor
  · rintro ⟨r, hr, hq⟩
    rw [List.mem_filterMap] at hq
    obtain ⟨i, hi, hq2⟩ := hq
    rw [List.mem_range] at hr hi
    by_cases hint : (g.node (s, r, i)).is_inter = true
    · rw [if_pos hint] at hq2
      have he : (s, r, i) = q := Option.some.inj hq2
      subst he
      exact ⟨rfl, ⟨hr, hi⟩, hint⟩
    · rw [if_neg hint] at hq2
      exact absurd hq2 (by simp)
  · rintro ⟨hs, hv, hint⟩
    refine ⟨q.2.1, List.mem_range.2 (by rw [← hs]; exact hv.1), ?_⟩
    rw [List.mem_filterMap]
    refine ⟨q.2.2, List.mem_range.2 (by rw [← hs]; exact hv.2), ?_⟩
    have he : (s, q.2.1, q.2.2) = q := by rw [← hs]
    rw [he, if_pos hint]

/-- One loop iteration from a side-consistent intersection-node cursor: the
walk succeeds, the cursor jumps to `nextPos`, the side flips, the structure is
preserved (only `visited` flags change), and the landing node is marked
visited. -/
theorem traceBody_matched (g0 : Graphs) (hwl : wellLinkedB g0 = true)
    (st : TraceState) (hss : sameStructure g0 st.g)
    (hv : validPos g0 st.current) (hi : (g0.node st.current).is_inter = true)
    (hmatch : st.current.1 = st.side) :
    ∃ g' pts', traceBody st =
      ({ g := g', current := nextPos g0 st.current, side := st.side.flip, pts := pts' },
        true) ∧
      sameStructure g0 g' ∧ (g'.node (nextPos g0 st.current)).visited = true := by
  obtain ⟨g, cur, side, pts⟩ := st
  obtain ⟨s, r, i⟩ := cur
  have hmatch2 : s = side := hmatch
  subst hmatch2
  obtain ⟨k, j, hk1, hj, hmin, hwt, hji, hjv, hnb, hnv, hni, hns, hbk⟩ :=
    nextPos_spec g0 hwl (s, r, i) hv hi
  have hflags : ∀ t, (((g.arena s).getD r []).getD t defNode).is_inter
      = (((g0.arena s).getD r []).getD t defNode).is_inter :=
    fun t => (hss.2.2 (s, r, t)).2.1
  have hlen : ((g.arena s).getD r []).length = ((g0.arena s).getD r []).length :=
    hss.2.1 s r
  have hres : (walkAux ((g.arena s).getD r []) ((g.arena s).getD r []).length i
      ((g.arena s).getD r []).length i pts).2 = some j := by
    rw [walkAux_snd_pts ((g.arena s).getD r []) _ i _ i pts []]
    rw [walkAux_snd_congr ((g.arena s).getD r []) ((g0.arena s).getD r []) _ i hflags _ i []]
    rw [hlen]
    exact hwt
  have hnb2 : (((g.arena s).getD r []).getD j defNode).neighbor
      = some (nextPos g0 (s, r, i)) := by
    show (g.node (s, r, j)).neighbor = some (nextPos g0 (s, r, i))
    rw [(hss.2.2 (s, r, j)).2.2]
    exact hnb
  refine ⟨(g.upd (s, r, j) fun nd => { nd with visited := true }).upd
      (nextPos g0 (s, r, i)) fun nd => { nd with visited := true },
    (walkAux ((g.arena s).getD r []) ((g.arena s).getD r []).length i
      ((g.arena s).getD r []).length i pts).1, ?_, ?_, ?_⟩
  · unfold traceBody
    dsimp only
    rw [if_neg (show ¬(s ≠ s) from not_ne_iff.2 rfl)]
    rw [hres]
    dsimp only
    rw [hnb2]
  · exact sameStructure_upd_visited g0 _
      (sameStructure_upd_visited g0 g hss (s, r, j) true) (nextPos g0 (s, r, i)) true
  · have hv2 : validPos (g.upd (s, r, j) fun nd => { nd with visited := true })
        (nextPos g0 (s, r, i)) := by
      rw [sameStructure_validPos g0 _ (sameStructure_upd_visited g0 g hss (s, r, j) true)]
      exact hnv
    rw [node_upd_self _ _ _ hv2]

/-- One loop iteration from a cursor on the wrong side is a pure `continue`:
it only flips the walked side. -/
theorem traceBody_mismatch (st : TraceState) (h : st.current.1 ≠ st.side) :
    traceBody st = ({ st with side := st.side.flip }, false) := by
  unfold traceBody
  rw [if_pos h]

/-- The stop condition fires when the cursor is back on the (visited) seed. -/
theorem stopCond_seed (st : TraceState) (r0 i0 : ℕ)
    (hcur : st.current = (Side.subj, r0, i0))
    (hvis : (st.g.node st.current).visited = true) :
    stopCond st (r0, i0) = true := by
  unfold stopCond
  rw [Bool.or_eq_true]
  right
  rw [Bool.and_eq_true]
  exact ⟨decide_eq_true hcur, hvis⟩

/-- The loop-termination induction: if the abstract cursor orbit returns to
the subject-side seed after `m ≥ 1` transitions, the loop reports a stop
within any budget of at least `m` iterations.  (The seed is visited when
reached, because the arrival jump marks its landing node.) -/
theorem traceLoop_stops (g0 : Graphs) (hwl : wellLinkedB g0 = true) (r0 i0 : ℕ) :
    ∀ m, 1 ≤ m → ∀ fuel, m ≤ fuel → ∀ st : TraceState,
      sameStructure g0 st.g → validPos g0 st.current →
      (g0.node st.current).is_inter = true → st.current.1 = st.side →
      (nextPos g0)^[m] st.current = (Side.subj, r0, i0) →
      (traceLoopAux (r0, i0) fuel st).2 = true := by
  intro m
  induction m with
  | zero => intro h1; omega
  | succ m ih =>
    intro _ fuel hfuel st hss hv hi hmatch hiter
    obtain ⟨fuel', rfl⟩ : ∃ f2, fuel = f2 + 1 := ⟨fuel - 1, by omega⟩
    obtain ⟨g', pts', hbe, hss', hvis'⟩ := traceBody_matched g0 hwl st hss hv hi hmatch
    obtain ⟨_, _, _, _, _, _, _, _, _, hnv, hni, hns, _⟩ := nextPos_spec g0 hwl st.current hv hi
    rw [traceLoopAux, hbe]
    dsimp only
    rw [Bool.true_and]
    by_cases hstop : stopCond
        { g := g', current := nextPos g0 st.current, side := st.side.flip, pts := pts' }
        (r0, i0) = true
    · rw [if_pos hstop]
    · rw [if_neg hstop]
      rcases Nat.eq_zero_or_pos m with hm0 | hm1
      · subst hm0
        have h7 : nextPos g0 st.current = (Side.subj, r0, i0) := by simpa using hiter
        exact absurd
          (stopCond_seed
            { g := g', current := nextPos g0 st.current, side := st.side.flip, pts := pts' }
            r0 i0 h7 hvis') hstop
      · refine ih hm1 fuel' (by omega)
          { g := g', current := nextPos g0 st.current, side := st.side.flip, pts := pts' }
          hss' hnv hni ?_ ?_
        · show (nextPos g0 st.current).1 = st.side.flip
          rw [hns, hmatch]
        · show (nextPos g0)^[m] (nextPos g0 st.current) = (Side.subj, r0, i0)
          rw [← Function.iterate_succ_apply]
          exact hiter

theorem mem_interPosList (g : Graphs) (q : Side × ℕ × ℕ) :
    q ∈ interPosList g ↔ validPos g q ∧ (g.node q).is_inter = true := by
  unfold interPosList
  rw [List.mem_append, mem_sidePositions, mem_sidePositions]
  constructor
  · rintro (⟨_, hv, hi⟩ | ⟨_, hv, hi⟩) <;> exact ⟨hv, hi⟩
  · rintro ⟨hv, hi⟩
    cases hqs : q.1
    · exact Or.inl ⟨rfl, hv, hi⟩
    · exact Or.inr ⟨rfl, hv, hi⟩

/-- **C4**: on any well-linked node graph (the shape `insert_intersections`
establishes and classification preserves), a tracing loop seeded at any
subject-side intersection node exits through its stop condition within
`totalInter + 2` iterations — a bound linear in the number of nodes and
independent of the `safety` counter, which therefore never cuts the loop
short: termination rests on the visited flag set by the arrival jump alone. -/
theorem trace_terminates_without_counter (g : Graphs) (hwl : wellLinkedB g = true)
    (r0 i0 : ℕ) (hv : validPos g (Side.subj, r0, i0))
    (hi : (g.node (Side.subj, r0, i0)).is_inter = true)
    (s0 : Side) (pts0 : List Point) (fuel : ℕ) (hfuel : totalInter g + 2 ≤ fuel) :
    (traceLoopAux (r0, i0) fuel
      { g := g, current := (Side.subj, r0, i0), side := s0, pts := pts0 }).2 = true := by
  have hmaps : ∀ q ∈ (interPosList g).toFinset, nextPos g q ∈ (interPosList g).toFinset := by
    intro q hq
    rw [List.mem_toFinset, mem_interPosList] at hq ⊢
    obtain ⟨_, _, _, _, _, _, _, _, _, hnv, hni, _, _⟩ := nextPos_spec g hwl q hq.1 hq.2
    exact ⟨hnv, hni⟩
  have hinj : ∀ a ∈ (interPosList g).toFinset, ∀ b ∈ (interPosList g).toFinset,
      nextPos g a = nextPos g b → a = b := by
    intro a ha b hb heq
    rw [List.mem_toFinset, mem_interPosList] at ha hb
    exact nextPos_inj g hwl a b ha.1 ha.2 hb.1 hb.2 heq
  have hseed : (Side.subj, r0, i0) ∈ (interPosList g).toFinset := by
    rw [List.mem_toFinset, mem_interPosList]
    exact ⟨hv, hi⟩
  obtain ⟨m, hm1, hmc, hmret⟩ := orbit_return (interPosList g).toFinset (nextPos g)
    hmaps hinj (Side.subj, r0, i0) hseed
  have hmt : m ≤ totalInter g := le_trans hmc (List.toFinset_card_le _)
  cases s0 with
  | subj =>
    exact traceLoop_stops g hwl r0 i0 m hm1 fuel (by omega)
      { g := g, current := (Side.subj, r0, i0), side := Side.subj, pts := pts0 }
      (sameStructure_refl g) hv hi rfl hmret
  | clip =>
    obtain ⟨fuel', rfl⟩ : ∃ f2, fuel = f2 + 1 := ⟨fuel - 1, by omega⟩
    rw [traceLoopAux, traceBody_mismatch
      { g := g, current := (Side.subj, r0, i0), side := Side.clip, pts := pts0 }
      (by show (Side.subj : Side) ≠ Side.clip; decide)]
    dsimp only
    rw [Bool.false_and]
    simp only [Bool.false_eq_true, if_false]
    exact traceLoop_stops g hwl r0 i0 m hm1 fuel' (by omega)
      { g := g, current := (Side.subj, r0, i0), side := Side.clip.flip, pts := pts0 }
      (sameStructure_refl g) hv hi rfl hmret

/-- The graph of the C4 witness: the overlapping squares of the spec's first
scenario, built and classified as `clip` does before tracing. -/
def c4wGraph : Graphs :=
  mark_entry_exit
    (insert_intersections { rings := [[(0,0),(4,0),(4,4),(0,4)]] }
      { rings := [[(2,2),(6,2),(6,6),(2,6)]] })
    { rings := [[(2,2),(6,2),(6,6),(2,6)]] }

/-- Witness for C4: on the classified overlapping-squares graph (well-linked,
4 intersection nodes), the loop seeded at subject position `(0, 2)` stops
within the `totalInter + 2 = 6` iteration bound. -/
theorem trace_terminates_without_counter_witness :
    wellLinkedB c4wGraph = true ∧
    (traceLoopAux (0, 2) 6
      { g := c4wGraph, current := (Side.subj, 0, 2), side := Side.subj,
        pts := [(4, 2)] }).2 = true :=
  ⟨by decide,
   trace_terminates_without_counter c4wGraph (by decide) 0 2 (by decide) (by decide)
     Side.subj [(4, 2)] 6 (by decide)⟩

end WeilerAtherton
